import Mathlib

/-!
Verification of the nested-variable subsystem of this repository:
the variable-definition schema (`api/core/workflow/entities/nested_variable.py`),
the definition/value validator (`api/core/workflow/validators/nested_variable_validator.py`),
the serializer (`api/core/workflow/serializers/nested_variable_serializer.py`),
and the enhanced variable pool with nested set and template formatting
(`enhanced_variable_pool.py`).

Python runtime values (already JSON-decoded data) are modelled by the
inductive type `JValue`; Python `None` is `JValue.null`, and the fact that
`bool` is a subclass of `int` in Python is reflected in the `pyIsInt` /
`pyIsNumber` instance checks.  Python floats are carried as rationals: no
claim below depends on float arithmetic or on the textual rendering of a
float, only on the int/float distinction made by `isinstance`.
-/

/-! ### Python value model -/

inductive JValue where
  | null
  | bool (b : Bool)
  | int (n : Int)
  | float (q : Rat)
  | str (s : String)
  | list (items : List JValue)
  | dict (entries : List (String × JValue))

/-- Python `value is None`. -/
def pyIsNone : JValue → Bool
  | .null => true
  | _ => false

/-- Python `isinstance(value, str)`. -/
def pyIsStr : JValue → Bool
  | .str _ => true
  | _ => false

/-- Python `isinstance(value, bool)`. -/
def pyIsBool : JValue → Bool
  | .bool _ => true
  | _ => false

/-- Python `isinstance(value, int)`: `bool` is a subclass of `int`. -/
def pyIsInt : JValue → Bool
  | .int _ => true
  | .bool _ => true
  | _ => false

/-- Python `isinstance(value, (int, float))`: booleans are ints. -/
def pyIsNumber : JValue → Bool
  | .int _ => true
  | .bool _ => true
  | .float _ => true
  | _ => false

/-- Python `isinstance(value, dict)`. -/
def pyIsDict : JValue → Bool
  | .dict _ => true
  | _ => false

/-- Python `isinstance(value, list)`. -/
def pyIsList : JValue → Bool
  | .list _ => true
  | _ => false

/-- Python `type(value).__name__` for JSON-decoded data. -/
def pyTypeName : JValue → String
  | .null => "NoneType"
  | .bool _ => "bool"
  | .int _ => "int"
  | .float _ => "float"
  | .str _ => "str"
  | .list _ => "list"
  | .dict _ => "dict"

/-- First binding of a key in a dict, as `Option` (Python `k in d` / `d[k]`). -/
def dictGetOpt : List (String × JValue) → String → Option JValue
  | [], _ => none
  | (k, v) :: rest, key => if k = key then some v else dictGetOpt rest key

/-- Python `d.get(k)`: `None` when the key is absent. -/
def pyDictGet (entries : List (String × JValue)) (key : String) : JValue :=
  (dictGetOpt entries key).getD .null

/-- Python truthiness of a JSON-decoded value. -/
def pyTruthy : JValue → Bool
  | .null => false
  | .bool b => b
  | .int n => n != 0
  | .float q => q != 0
  | .str s => s != ""
  | .list items => !items.isEmpty
  | .dict entries => !entries.isEmpty

/-! ### Variable type vocabulary (`NestedVariableType`) -/

/-- `MAX_NESTING_DEPTH` from `api/core/workflow/entities/nested_variable.py`. -/
def MAX_NESTING_DEPTH : Nat := 5

/-- The closed `NestedVariableType` enumeration. -/
inductive NestedVariableType where
  | string
  | integer
  | number
  | boolean
  | object
  | file
  | arrayString
  | arrayInteger
  | arrayNumber
  | arrayObject
  | arrayBoolean
  | arrayFile
  deriving DecidableEq, Repr

/-- The `StrEnum` value of each member. -/
def NestedVariableType.value : NestedVariableType → String
  | .string => "string"
  | .integer => "integer"
  | .number => "number"
  | .boolean => "boolean"
  | .object => "object"
  | .file => "file"
  | .arrayString => "array[string]"
  | .arrayInteger => "array[integer]"
  | .arrayNumber => "array[number]"
  | .arrayObject => "array[object]"
  | .arrayBoolean => "array[boolean]"
  | .arrayFile => "array[file]"

/-- The `NestedVariableType(type_str)` enum constructor: tag-string lookup. -/
def NestedVariableType.ofTag (s : String) : Option NestedVariableType :=
  if s = "string" then some .string
  else if s = "integer" then some .integer
  else if s = "number" then some .number
  else if s = "boolean" then some .boolean
  else if s = "object" then some .object
  else if s = "file" then some .file
  else if s = "array[string]" then some .arrayString
  else if s = "array[integer]" then some .arrayInteger
  else if s = "array[number]" then some .arrayNumber
  else if s = "array[object]" then some .arrayObject
  else if s = "array[boolean]" then some .arrayBoolean
  else if s = "array[file]" then some .arrayFile
  else none

/-- `is_nestable`: membership in `(OBJECT, ARRAY_OBJECT)`. -/
def NestedVariableType.is_nestable (t : NestedVariableType) : Bool :=
  t = .object || t = .arrayObject

/-- Python `s.startswith(pre)` as a character-prefix test. -/
def pyStartsWith (s pre : String) : Bool :=
  pre.data.isPrefixOf s.data

/-- `is_array`: `self.value.startswith("array[")`. -/
def NestedVariableType.is_array (t : NestedVariableType) : Bool :=
  pyStartsWith t.value "array["

/-- Python `s.split(sep)` for a single-character separator; the result is
never empty (`"".split(".") == [""]`). -/
def pySplitChars (sep : Char) : List Char → List (List Char)
  | [] => [[]]
  | c :: rest =>
    match pySplitChars sep rest with
    | [] => [[c]]
    | p :: ps => if c = sep then [] :: p :: ps else (c :: p) :: ps

/-- Python `s.split(".")`. -/
def splitDot (s : String) : List String :=
  (pySplitChars '.' s.data).map (fun p => String.mk p)

/-! ### Variable name pattern -/

def isAsciiLetter (c : Char) : Bool :=
  ('a' ≤ c && c ≤ 'z') || ('A' ≤ c && c ≤ 'Z')

def isNameChar (c : Char) : Bool :=
  isAsciiLetter c || ('0' ≤ c && c ≤ '9') || c = '_'

/-- One letter followed by name characters (the text of
`[a-zA-Z][a-zA-Z0-9_]*` against a whole character list). -/
def nameChars : List Char → Bool
  | [] => false
  | c :: rest => isAsciiLetter c && rest.all isNameChar

/-- `VARIABLE_NAME_PATTERN.match`: the anchored regex `^[a-zA-Z][a-zA-Z0-9_]*$`.
In Python `$` also matches just before a single newline at the end of the
string, so a name with one trailing newline is accepted by the source. -/
def matchesVariableNamePattern (s : String) : Bool :=
  nameChars s.data ||
    (s.data.getLast? = some '\n' && nameChars s.data.dropLast)

/-! ### `NestedVariableDefinition` -/

inductive NestedVariableDefinition where
  | mk (name : String) (type : NestedVariableType) (required : Bool)
       (description : String) (default_value : JValue)
       (children : Option (List NestedVariableDefinition))

namespace NestedVariableDefinition

def name : NestedVariableDefinition → String
  | .mk n _ _ _ _ _ => n

def type : NestedVariableDefinition → NestedVariableType
  | .mk _ t _ _ _ _ => t

def required : NestedVariableDefinition → Bool
  | .mk _ _ r _ _ _ => r

def description : NestedVariableDefinition → String
  | .mk _ _ _ d _ _ => d

def default_value : NestedVariableDefinition → JValue
  | .mk _ _ _ _ v _ => v

def children : NestedVariableDefinition → Option (List NestedVariableDefinition)
  | .mk _ _ _ _ _ c => c

end NestedVariableDefinition

/-! ### Construction-time validation (pydantic validators) -/

/-- Python `set(xs)` membership list built in insertion order; its length is
`len(set(xs))`. -/
def pySet (xs : List String) : List String :=
  xs.foldl (fun acc x => if x ∈ acc then acc else acc ++ [x]) []

/-- The duplicate-collection loop of `validate_definition` and
`validate_definitions`: `seen`/`duplicates` sets built over the names in
order; returns the `duplicates` set as a list in insertion order. -/
def collectDuplicates (names : List String) : List String :=
  (names.foldl
    (fun (acc : List String × List String) nm =>
      ((if nm ∈ acc.1 then acc.1 else acc.1 ++ [nm]),
       (if nm ∈ acc.1 && nm ∉ acc.2 then acc.2 ++ [nm] else acc.2)))
    ([], [])).2

/-- Rendering of a Python `set` of strings in an error message.  CPython
renders sets in hash order, which is implementation-defined; this model
renders in insertion order.  No theorem below depends on this string. -/
def pyStrSetRepr (xs : List String) : String :=
  "\x7b" ++ String.intercalate ", " (xs.map (fun s => "\x27" ++ s ++ "\x27")) ++ "\x7d"

/-- Construction of a `NestedVariableDefinition` through pydantic:
the `validate_name` field validator (name pattern) and the
`validate_children_for_type` model validator (children only on nestable
types, sibling names unique).  Children have already been constructed. -/
def mkNestedVariableDefinition (name : String) (type : NestedVariableType)
    (required : Bool) (description : String) (default_value : JValue)
    (children : Option (List NestedVariableDefinition)) :
    Except String NestedVariableDefinition :=
  if !matchesVariableNamePattern name then
    .error ("Variable name \x27" ++ name ++
      "\x27 must start with a letter and contain only alphanumeric characters and underscores")
  else
    match children with
    | some cs =>
      if cs.length > 0 then
        if !type.is_nestable then
          .error ("Children are only allowed for \x27object\x27 and \x27array[object]\x27 types, got \x27"
            ++ type.value ++ "\x27")
        else
          let names := cs.map NestedVariableDefinition.name
          if names.length ≠ (pySet names).length then
            .error ("Child variable names must be unique within the same parent. Duplicates: "
              ++ pyStrSetRepr (collectDuplicates names))
          else
            .ok (.mk name type required description default_value children)
      else .ok (.mk name type required description default_value children)
    | none => .ok (.mk name type required description default_value children)

/-! ### Structural invariant of constructed trees

`wfDef` holds of exactly the trees every node of which passes the
construction-time pydantic checks; it is the invariant the entity module
establishes (an invalid tree cannot exist in memory). -/

mutual

def wfDef : NestedVariableDefinition → Bool
  | .mk nm ty _ _ _ ch =>
    matchesVariableNamePattern nm &&
    (match ch with
     | none => true
     | some cs =>
       (cs.isEmpty ||
         (ty.is_nestable &&
           ((cs.map NestedVariableDefinition.name).length = (pySet (cs.map NestedVariableDefinition.name)).length))) &&
       wfList cs)

def wfList : List NestedVariableDefinition → Bool
  | [] => true
  | c :: rest => wfDef c && wfList rest

end

/-! ### `get_max_depth` and `validate_depth` -/

mutual

/-- `get_max_depth`: 1 when `children` is `None` or empty, else
`1 + max(child.get_max_depth() for child in children)`. -/
def get_max_depth : NestedVariableDefinition → Nat
  | .mk _ _ _ _ _ ch =>
    match ch with
    | none => 1
    | some cs => if cs.isEmpty then 1 else 1 + get_max_depth_list cs

/-- Python `max` over the child depths of a non-empty list. -/
def get_max_depth_list : List NestedVariableDefinition → Nat
  | [] => 0
  | c :: rest => max (get_max_depth c) (get_max_depth_list rest)

end

/-- `validate_depth`: message list, empty when within the bound. -/
def validate_depth (d : NestedVariableDefinition) (max_depth : Nat) : List String :=
  let current_depth := get_max_depth d
  if current_depth > max_depth then
    ["Maximum nesting depth of " ++ toString max_depth ++ " exceeded at \x27" ++
      d.name ++ "\x27 (depth: " ++ toString current_depth ++ ")"]
  else []

/-! ### `NestedVariableValidator` -/

/-- A validation error (`path`, `message`, `error_code`). -/
structure ValidationError where
  path : String
  message : String
  error_code : String
  deriving DecidableEq, Repr

/-- Dot-joined path building shared by `validate_definition` and
`validate_value`: `f"{path}.{definition.name}" if path else definition.name`. -/
def joinPath (path nm : String) : String :=
  if path = "" then nm else path ++ "." ++ nm

mutual

/-- `NestedVariableValidator.validate_definition`. -/
def validate_definition (d : NestedVariableDefinition) (current_depth : Nat)
    (path : String) : List ValidationError :=
  match d with
  | .mk nm ty _ _ _ ch =>
    let current_path := joinPath path nm
    if current_depth > MAX_NESTING_DEPTH then
      [{ path := current_path,
         message := "Maximum nesting depth of " ++ toString MAX_NESTING_DEPTH ++ " exceeded",
         error_code := "MAX_DEPTH_EXCEEDED" }]
    else
      match ch with
      | none => []
      | some cs =>
        if cs.isEmpty then []
        else if !ty.is_nestable then
          [{ path := current_path,
             message := "Type \x27" ++ ty.value ++ "\x27 does not support children",
             error_code := "INVALID_CHILDREN_TYPE" }]
        else
          (let duplicates := collectDuplicates (cs.map NestedVariableDefinition.name)
           if duplicates.isEmpty then []
           else
             [{ path := current_path,
                message := "Duplicate child names: " ++ pyStrSetRepr duplicates,
                error_code := "DUPLICATE_CHILD_NAME" }]) ++
          validate_definition_children cs (current_depth + 1) current_path

/-- The recursion of `validate_definition` over the children list. -/
def validate_definition_children (cs : List NestedVariableDefinition)
    (depth : Nat) (path : String) : List ValidationError :=
  match cs with
  | [] => []
  | c :: rest =>
    validate_definition c depth path ++ validate_definition_children rest depth path

end

/-- `NestedVariableValidator.validate_definitions` (top-level list). -/
def validate_definitions (ds : List NestedVariableDefinition) : List ValidationError :=
  (let duplicates := collectDuplicates (ds.map NestedVariableDefinition.name)
   if duplicates.isEmpty then []
   else
     [{ path := "",
        message := "Duplicate variable names at root level: " ++ pyStrSetRepr duplicates,
        error_code := "DUPLICATE_CHILD_NAME" }]) ++
  validate_definition_children ds 1 ""

/-- The `type_validators` table of `_validate_type`: the `isinstance` check
and the displayed type name for each variable type.  `FILE` has no entry. -/
def type_validators : NestedVariableType → Option ((JValue → Bool) × String)
  | .string => some (pyIsStr, "string")
  | .integer => some (pyIsInt, "integer")
  | .number => some (pyIsNumber, "number")
  | .boolean => some (pyIsBool, "boolean")
  | .object => some (pyIsDict, "object")
  | .file => none
  | .arrayString => some (pyIsList, "array[string]")
  | .arrayInteger => some (pyIsList, "array[integer]")
  | .arrayNumber => some (pyIsList, "array[number]")
  | .arrayObject => some (pyIsList, "array[object]")
  | .arrayBoolean => some (pyIsList, "array[boolean]")
  | .arrayFile => some (pyIsList, "array[file]")

/-- The `element_type_map` of `_validate_array_elements`.  `ARRAY_FILE` has
no entry, so its elements are never checked. -/
def element_type_map : NestedVariableType → Option ((JValue → Bool) × String)
  | .arrayString => some (pyIsStr, "string")
  | .arrayInteger => some (pyIsInt, "integer")
  | .arrayNumber => some (pyIsNumber, "number")
  | .arrayBoolean => some (pyIsBool, "boolean")
  | .arrayObject => some (pyIsDict, "object")
  | _ => none

/-- The per-element checks in the loop body of `_validate_array_elements`:
the two boolean special cases, then the `isinstance` check.  Returns the
error message when the element violates its type. -/
def array_element_check (array_type : NestedVariableType) (isInst : JValue → Bool)
    (element_type_name : String) (element : JValue) : Option String :=
  if array_type = .arrayInteger && pyIsBool element then
    some ("Array element expected " ++ element_type_name ++ ", got boolean")
  else if array_type = .arrayNumber && pyIsBool element then
    some ("Array element expected " ++ element_type_name ++ ", got boolean")
  else if !isInst element then
    some ("Array element expected " ++ element_type_name ++ ", got " ++ pyTypeName element)
  else none

/-- The `for i, element in enumerate(value)` loop of
`_validate_array_elements`: returns the FIRST violation. -/
def array_elements_loop (array_type : NestedVariableType) (isInst : JValue → Bool)
    (element_type_name : String) (path : String) :
    List JValue → Nat → Option ValidationError
  | [], _ => none
  | element :: rest, i =>
    match array_element_check array_type isInst element_type_name element with
    | some msg =>
      some { path := path ++ "[" ++ toString i ++ "]", message := msg,
             error_code := "TYPE_MISMATCH" }
    | none => array_elements_loop array_type isInst element_type_name path rest (i + 1)

/-- `NestedVariableValidator._validate_array_elements`. -/
def validate_array_elements (value : List JValue) (array_type : NestedVariableType)
    (path : String) : Option ValidationError :=
  match element_type_map array_type with
  | none => none
  | some (isInst, element_type_name) =>
    array_elements_loop array_type isInst element_type_name path value 0

/-- `NestedVariableValidator._validate_type`. -/
def validate_type (value : JValue) (expected_type : NestedVariableType)
    (path : String) : Option ValidationError :=
  match type_validators expected_type with
  | none => none
  | some (isInst, type_name) =>
    if expected_type = .integer && pyIsBool value then
      some { path := path, message := "Expected " ++ type_name ++ ", got boolean",
             error_code := "TYPE_MISMATCH" }
    else if expected_type = .number && pyIsBool value then
      some { path := path, message := "Expected " ++ type_name ++ ", got boolean",
             error_code := "TYPE_MISMATCH" }
    else if !isInst value then
      some { path := path,
             message := "Expected " ++ type_name ++ ", got " ++ pyTypeName value,
             error_code := "TYPE_MISMATCH" }
    else
      match value with
      | .list items =>
        if expected_type.is_array then validate_array_elements items expected_type path
        else none
      | _ => none

mutual

/-- `NestedVariableValidator.validate_value`. -/
def validate_value (value : JValue) (d : NestedVariableDefinition)
    (path : String) : List ValidationError :=
  match d with
  | .mk nm ty req _ _ ch =>
    let current_path := joinPath path nm
    if pyIsNone value then
      if req then
        [{ path := current_path, message := "Required field is missing",
           error_code := "REQUIRED_FIELD_MISSING" }]
      else []
    else
      match validate_type value ty current_path with
      | some e => [e]
      | none =>
        (match ch, value with
         | some cs, .dict entries =>
           if cs.isEmpty then [] else validate_value_children cs entries current_path
         | _, _ => []) ++
        (match ch, value with
         | some cs, .list items =>
           if ty = .arrayObject && !cs.isEmpty then
             validate_array_object_items cs items current_path 0
           else []
         | _, _ => [])

/-- The `for child_def in definition.children` loop of `validate_value`
against a dict value: each child is validated against
`value.get(child.name)`. -/
def validate_value_children (cs : List NestedVariableDefinition)
    (entries : List (String × JValue)) (path : String) : List ValidationError :=
  match cs with
  | [] => []
  | c :: rest =>
    validate_value (pyDictGet entries c.name) c path ++
    validate_value_children rest entries path

/-- The `for i, item in enumerate(value)` loop of `validate_value` for
`array[object]` values: a non-dict item yields `INVALID_ARRAY_ELEMENT`, a
dict item has every child validated with `path[i]` as base path. -/
def validate_array_object_items (cs : List NestedVariableDefinition)
    (items : List JValue) (current_path : String) (i : Nat) : List ValidationError :=
  match items with
  | [] => []
  | item :: rest =>
    (match item with
     | .dict entries =>
       validate_value_children cs entries (current_path ++ "[" ++ toString i ++ "]")
     | _ =>
       [{ path := current_path ++ "[" ++ toString i ++ "]",
          message := "Array element must be an object",
          error_code := "INVALID_ARRAY_ELEMENT" }]) ++
    validate_array_object_items cs rest current_path (i + 1)

end

/-- `NestedVariableValidator.validate_values` (dict of values against a
definition list). -/
def validate_values (values : List (String × JValue))
    (ds : List NestedVariableDefinition) : List ValidationError :=
  match ds with
  | [] => []
  | d :: rest => validate_value (pyDictGet values d.name) d "" ++ validate_values values rest

/-! ### `NestedVariableSerializer` -/

mutual

/-- `NestedVariableSerializer.serialize_definition`: emits `name`, `type`,
`required`, `description`; `default_value` only when not `None`; `children`
only when present and non-empty (Python truthiness of the sequence). -/
def serialize_definition : NestedVariableDefinition → JValue
  | .mk nm ty req desc dv ch =>
    .dict ([("name", .str nm), ("type", .str ty.value),
            ("required", .bool req), ("description", .str desc)] ++
      (if !pyIsNone dv then [("default_value", dv)] else []) ++
      (match ch with
       | some cs => if cs.isEmpty then [] else [("children", .list (serialize_definition_list cs))]
       | none => []))

def serialize_definition_list : List NestedVariableDefinition → List JValue
  | [] => []
  | c :: rest => serialize_definition c :: serialize_definition_list rest

end

mutual

/-- `NestedVariableSerializer.deserialize_definition`.  `fuel` bounds the
recursion depth of the model; any fuel at least the nesting depth of `data`
reproduces the source, whose recursion is bounded by the data itself.
pydantic lax coercions of a non-string `name`/`description` or non-boolean
`required` are not modelled: such a field fails construction, and the
failure is wrapped like any pydantic error in the source.  -/
def deserialize_definition (fuel : Nat) (data : JValue) :
    Except String NestedVariableDefinition :=
  match fuel with
  | 0 => .error "model recursion fuel exhausted"
  | fuel + 1 =>
    match data with
    | .dict entries =>
      let nameVal := pyDictGet entries "name"
      if !pyTruthy nameVal then .error "Missing required field \x27name\x27"
      else
        let typeVal := pyDictGet entries "type"
        if !pyTruthy typeVal then .error "Missing required field \x27type\x27"
        else
          match nameVal, typeVal with
          | .str nm, .str ts =>
            match NestedVariableType.ofTag ts with
            | none => .error ("Invalid variable type: " ++ ts)
            | some var_type =>
              let childrenVal := pyDictGet entries "children"
              let childrenParsed : Except String (Option (List NestedVariableDefinition)) :=
                if pyTruthy childrenVal then
                  match childrenVal with
                  | .list xs =>
                    match deserialize_definition_list fuel xs with
                    | .ok cs => .ok (some cs)
                    | .error e => .error e
                  | _ => .error "Field \x27children\x27 must be a list"
                else .ok none
              match childrenParsed with
              | .error e => .error e
              | .ok children =>
                let requiredParsed : Except String Bool :=
                  match dictGetOpt entries "required" with
                  | none => .ok false
                  | some (.bool b) => .ok b
                  | some v =>
                    .error ("Failed to deserialize nested variable definition: required field got "
                      ++ pyTypeName v)
                let descParsed : Except String String :=
                  match dictGetOpt entries "description" with
                  | none => .ok ""
                  | some (.str s) => .ok s
                  | some v =>
                    .error ("Failed to deserialize nested variable definition: description field got "
                      ++ pyTypeName v)
                match requiredParsed, descParsed with
                | .ok req, .ok desc =>
                  (match mkNestedVariableDefinition nm var_type req desc
                      (pyDictGet entries "default_value") children with
                   | .ok d => .ok d
                   | .error e =>
                     .error ("Failed to deserialize nested variable definition: " ++ e))
                | .error e, _ => .error e
                | _, .error e => .error e
          | _, .str ts =>
            .error ("Failed to deserialize nested variable definition: name field got "
              ++ pyTypeName (pyDictGet entries "name") ++ " for type " ++ ts)
          | _, _ => .error "Invalid variable type: non-string type value"
    | _ =>
      .error ("Failed to deserialize nested variable definition: data is " ++ pyTypeName data)

def deserialize_definition_list (fuel : Nat) (xs : List JValue) :
    Except String (List NestedVariableDefinition) :=
  match xs with
  | [] => .ok []
  | x :: rest =>
    match deserialize_definition fuel x with
    | .error e => .error e
    | .ok d =>
      match deserialize_definition_list fuel rest with
      | .ok ds => .ok (d :: ds)
      | .error e => .error e

end

/-! ### Heap model for the enhanced variable pool

`set_nested_value` deep-copies the stored dict and then mutates the copy in
place, so Python object identity matters for its contract.  Mutable dicts
are therefore modelled as heap cells addressed by natural numbers; a stored
"object" value is a reference (`HVal.ref`) into the heap.  Python lists are
carried inline: `set_nested_value` never mutates a list, and a list element
that is a dict is still a reference.  `deepcopy` is modelled without the
memo dictionary Python uses to preserve internal aliasing: on data without
internal sharing (every test and every property below) the behaviour is
identical, and the model duplicates instead of failing on shared subtrees. -/

inductive HVal where
  | vnone
  | vbool (b : Bool)
  | vint (n : Int)
  | vfloat (q : Rat)
  | vstr (s : String)
  | vlist (xs : List HVal)
  | ref (a : Nat)

/-- The heap: cell `a` is the dict object at address `a`; allocation appends. -/
structure Heap where
  cells : List (List (String × HVal))

def Heap.read (h : Heap) (a : Nat) : List (String × HVal) :=
  (h.cells.get? a).getD []

def Heap.write (h : Heap) (a : Nat) (d : List (String × HVal)) : Heap :=
  ⟨h.cells.set a d⟩

def Heap.alloc (h : Heap) (d : List (String × HVal)) : Heap × Nat :=
  (⟨h.cells ++ [d]⟩, h.cells.length)

/-- First binding of a key in a dict object (`k in d` / `d[k]`). -/
def hdictGetOpt : List (String × HVal) → String → Option HVal
  | [], _ => none
  | (k, v) :: rest, key => if k = key then some v else hdictGetOpt rest key

/-- Python `d[k] = v`: replace the first binding in place, else append. -/
def hdictSet : List (String × HVal) → String → HVal → List (String × HVal)
  | [], key, v => [(key, v)]
  | (k, w) :: rest, key, v =>
    if k = key then (key, v) :: rest else (k, w) :: hdictSet rest key v

mutual

/-- `copy.deepcopy` (without the memo, see above): dict objects are copied
into freshly allocated cells, children before parents; scalars are returned
unchanged.  Every recursive call consumes one unit of `fuel`, so the model
only runs out of fuel on data larger than `fuel`, which the theorems below
exclude by hypothesis. -/
def deepcopyVal (fuel : Nat) (h : Heap) (v : HVal) : Option (Heap × HVal) :=
  match fuel with
  | 0 => none
  | fuel + 1 =>
    match v with
    | .vlist xs =>
      match deepcopyList fuel h xs with
      | some (h1, ys) => some (h1, .vlist ys)
      | none => none
    | .ref a =>
      match deepcopyDict fuel h (h.read a) with
      | some (h1, d1) =>
        let al := h1.alloc d1
        some (al.1, .ref al.2)
      | none => none
    | w => some (h, w)

def deepcopyList (fuel : Nat) (h : Heap) (xs : List HVal) :
    Option (Heap × List HVal) :=
  match fuel with
  | 0 => none
  | fuel + 1 =>
    match xs with
    | [] => some (h, [])
    | x :: rest =>
      match deepcopyVal fuel h x with
      | some (h1, y) =>
        match deepcopyList fuel h1 rest with
        | some (h2, ys) => some (h2, y :: ys)
        | none => none
      | none => none

def deepcopyDict (fuel : Nat) (h : Heap) (d : List (String × HVal)) :
    Option (Heap × List (String × HVal)) :=
  match fuel with
  | 0 => none
  | fuel + 1 =>
    match d with
    | [] => some (h, [])
    | (k, v) :: rest =>
      match deepcopyVal fuel h v with
      | some (h1, w) =>
        match deepcopyDict fuel h1 rest with
        | some (h2, ws) => some (h2, (k, w) :: ws)
        | none => none
      | none => none

end

/-! ### The variable pool

The base `VariablePool` (`add`/`get`) is not part of the sources; its
behaviour is modelled from the spec. -/

/-- The pool: (scope-id, variable-name) to stored value.  A stored dict is
an `HVal.ref`; this plays the role of an `ObjectSegment`, whose Segment
wrapper records exactly the runtime kind already carried by the `HVal`
constructor. -/
abbrev Pool := List ((String × String) × HVal)

def poolLookup : Pool → String × String → Option HVal
  | [], _ => none
  | (k, v) :: rest, key => if k = key then some v else poolLookup rest key

def poolSet : Pool → String × String → HVal → Pool
  | [], key, v => [(key, v)]
  | (k, w) :: rest, key, v =>
    if k = key then (key, v) :: rest else (k, w) :: poolSet rest key v

/-- Modelled from the spec: `add(selector, value)` stores the value at
(scope, name), overwriting any prior entry; a selector with fewer than two
segments is rejected. -/
def poolAdd (p : Pool) (selector : List String) (v : HVal) : Pool :=
  match selector with
  | scope :: nm :: _ => poolSet p (scope, nm) v
  | _ => p

/-- Modelled from the spec: the nested walk of `get` — each extra selector
segment requires the current value to be a map containing that key, else
the result is "not found". -/
def getWalk (h : Heap) : HVal → List String → Option HVal
  | v, [] => some v
  | .ref a, k :: rest =>
    match hdictGetOpt (h.read a) k with
    | some v1 => getWalk h v1 rest
    | none => none
  | _, _ :: _ => none

/-- Modelled from the spec: `get(selector)` — two segments look up the
stored value verbatim; extra segments walk the stored object. -/
def poolGet (h : Heap) (p : Pool) (selector : List String) : Option HVal :=
  match selector with
  | scope :: nm :: rest =>
    match poolLookup p (scope, nm) with
    | some v => getWalk h v rest
    | none => none
  | _ => none

/-- `EnhancedVariablePool.get_nested_value`: with a truthy `nested_path`,
split it on `.` and extend the selector; else plain `get`. -/
def get_nested_value (h : Heap) (p : Pool) (selector : List String)
    (nested_path : Option String) : Option HVal :=
  match nested_path with
  | some np => if np = "" then poolGet h p selector
               else poolGet h p (selector ++ splitDot np)
  | none => poolGet h p selector

/-- Whether writing `parts` from the dict at `addr` would hit a non-dict
intermediate value (the `elif not isinstance(current[part], dict)`
rejection of `set_nested_value`): a present non-dict binding blocks, a
missing binding does not (an empty dict would be created). -/
def pathBlocked (h : Heap) (a : Nat) : List String → Bool
  | [] => false
  | [_] => false
  | part :: rest =>
    match hdictGetOpt (h.read a) part with
    | some (.ref a1) => pathBlocked h a1 rest
    | some _ => true
    | none => false

/-- The walk-and-write loop of `set_nested_value`: for every part except
the last, follow the binding (creating a fresh empty dict when missing,
failing on a non-dict value), then set the last part's key. -/
def setWalk (h : Heap) (addr : Nat) (parts : List String) (value : HVal) :
    Bool × Heap :=
  match parts with
  | [] => (false, h)
  | [last] => (true, h.write addr (hdictSet (h.read addr) last value))
  | part :: rest =>
    match hdictGetOpt (h.read addr) part with
    | none =>
      let al := h.alloc []
      let h2 := al.1.write addr (hdictSet (al.1.read addr) part (.ref al.2))
      setWalk h2 al.2 rest value
    | some (.ref a1) => setWalk h a1 rest value
    | some _ => (false, h)

/-- `EnhancedVariablePool.set_nested_value`: fails unless the stored root is
an object; deep-copies it, walks/creates the path on the copy, writes the
final key, and replaces the pool entry with the copy.  `none` only when the
model fuel for `deepcopy` runs out. -/
def set_nested_value (fuel : Nat) (h : Heap) (p : Pool) (selector : List String)
    (nested_path : String) (value : HVal) : Option (Bool × Heap × Pool) :=
  match poolGet h p selector with
  | some (.ref a) =>
    match deepcopyVal fuel h (.ref a) with
    | some (h1, newObj) =>
      match newObj with
      | .ref newRoot =>
        match setWalk h1 newRoot (splitDot nested_path) value with
        | (true, h2) => some (true, h2, poolAdd p selector newObj)
        | (false, h2) => some (false, h2, p)
      | _ => none
    | none => none
  | _ => some (false, h, p)

/-! ### `EnhancedVariableTemplateParser.format_with_nested_variables`

The `NESTED_PATTERN` regex is
`\{\{#([a-zA-Z0-9_]{1,50}(?:\.[a-zA-Z_][a-zA-Z0-9_]{0,29}){1,10})(?:\.([a-zA-Z_][a-zA-Z0-9_.]{0,100}))?#\}\}`.
None of its character classes contains `#`, `\x7b` or `\x7d`, so a match
always spans from a literal `\x7b\x7b#` to the first following `#`, which
must be followed by `\x7d\x7d`; the backtracking over the repetition count
of the first group and the greedy optional tail group are played out
explicitly below (largest repetition count first, tail-present before
tail-absent, which for a fixed `#` position leaves exactly one candidate
per count). -/

/-- Characters allowed in the optional tail group: name chars and dots. -/
def isTailChar (c : Char) : Bool :=
  isNameChar c || c = '.'

/-- Join piece lists with dots. -/
def joinDots : List (List Char) → List Char
  | [] => []
  | [p] => p
  | p :: ps => p ++ '.' :: joinDots ps

/-- `[a-zA-Z0-9_]{1,50}`: the first selector segment. -/
def validSeg0 (p : List Char) : Bool :=
  decide (1 ≤ p.length) && decide (p.length ≤ 50) && p.all isNameChar

/-- `[a-zA-Z_][a-zA-Z0-9_]{0,29}`: a further selector segment. -/
def validSegN (p : List Char) : Bool :=
  match p with
  | [] => false
  | c :: rest => (isAsciiLetter c || c = '_') && rest.all isNameChar && decide (p.length ≤ 30)

/-- `[a-zA-Z_][a-zA-Z0-9_.]{0,100}`: the optional nested-path tail. -/
def validTailStr (p : List Char) : Bool :=
  match p with
  | [] => false
  | c :: rest => (isAsciiLetter c || c = '_') && rest.all isTailChar && decide (p.length ≤ 101)

/-- Length of the maximal prefix of valid further segments (the greedy
first pass of the `{1,10}` repetition). -/
def greedyReps : List (List Char) → Nat
  | [] => 0
  | p :: ps => if validSegN p then 1 + greedyReps ps else 0

/-- Backtracking over the repetition count, largest first.  For count `r`,
the tail group must absorb exactly the remaining pieces (joined by dots)
when there are any, else the content must end. -/
def tryReps (seg0 : List Char) (ps : List (List Char)) :
    Nat → Option (List String × Option String)
  | 0 => none
  | r + 1 =>
    let rest := ps.drop (r + 1)
    let sel := (seg0 :: ps.take (r + 1)).map (fun p => String.mk p)
    if rest.isEmpty then some (sel, none)
    else
      let tail := joinDots rest
      if validTailStr tail then some (sel, some (String.mk tail))
      else tryReps seg0 ps r

/-- Match the pattern between `\x7b\x7b#` and `#\x7d\x7d` against the
content characters, returning the selector parts (group 1 split on dots)
and the optional nested path (group 2). -/
def matchContent (content : List Char) : Option (List String × Option String) :=
  match pySplitChars '.' content with
  | [] => none
  | seg0 :: ps =>
    if validSeg0 seg0 then tryReps seg0 ps (min (greedyReps ps) 10)
    else none

/-- Try to match `NESTED_PATTERN` at the start of `cs`; on success return
the selector parts, the nested path, the raw matched text (`match.group(0)`)
and the remainder of the input. -/
def matchAt (cs : List Char) : Option (List String × Option String × List Char × List Char) :=
  match cs with
  | '\x7b' :: '\x7b' :: '#' :: rest =>
    let content := rest.takeWhile (fun c => c ≠ '#')
    (match rest.drop content.length with
     | '#' :: '\x7d' :: '\x7d' :: rem =>
       match matchContent content with
       | some (sel, np) =>
         some (sel, np, '\x7b' :: '\x7b' :: '#' :: (content ++ '#' :: '\x7d' :: '\x7d' :: []), rem)
       | none => none
     | _ => none)
  | _ => none

/-- Python `str(value)` for the scalar values a replacement can surface.
The renderings of floats and of containers are approximated and no theorem
depends on them. -/
def pyStr : HVal → String
  | .vnone => "None"
  | .vbool true => "True"
  | .vbool false => "False"
  | .vint n => toString n
  | .vfloat q => toString q
  | .vstr s => s
  | .vlist _ => "<list>"
  | .ref _ => "<dict>"

/-- The replacer of `format_with_nested_variables`: resolve the selector
and nested path through the pool and substitute `str(segment.value)`, or
keep `match.group(0)` when the resolution is absent. -/
def formatReplacement (h : Heap) (p : Pool) (sel : List String)
    (np : Option String) (raw : List Char) : List Char :=
  match get_nested_value h p sel np with
  | some v => (pyStr v).data
  | none => raw

/-- The `re.sub` scan: at each position try the pattern; on a match emit
the replacement and continue after it, else keep one character.  `fuel` is
a structural bound; `fuel ≥ length` makes it immaterial, since every step
consumes at least one character. -/
def resubChars (h : Heap) (p : Pool) : Nat → List Char → List Char
  | 0, cs => cs
  | _, [] => []
  | fuel + 1, c :: rest =>
    match matchAt (c :: rest) with
    | some (sel, np, raw, rem) =>
      formatReplacement h p sel np raw ++ resubChars h p fuel rem
    | none => c :: resubChars h p fuel rest

/-- `EnhancedVariableTemplateParser(template).format_with_nested_variables(pool)`. -/
def format_with_nested_variables (h : Heap) (p : Pool) (template : String) : String :=
  String.mk (resubChars h p template.data.length template.data)

/-! ### Auxiliary definitions used by the properties -/

mutual

/-- No node of the tree has `children = some []` (an empty sequence as
opposed to `None`); the serializer cannot distinguish the two. -/
def noEmptyChildrenDef : NestedVariableDefinition → Bool
  | .mk _ _ _ _ _ none => true
  | .mk _ _ _ _ _ (some cs) => !cs.isEmpty && noEmptyChildrenList cs

def noEmptyChildrenList : List NestedVariableDefinition → Bool
  | [] => true
  | c :: rest => noEmptyChildrenDef c && noEmptyChildrenList rest

end

/-- A chain-shaped definition of depth `n + 1`. -/
def chainDef : Nat → NestedVariableDefinition
  | 0 => .mk "leaf" .string false "" .null none
  | n + 1 => .mk "node" .object false "" .null (some [chainDef n])

/-- The same chain built through the pydantic constructor, bottom-up. -/
def buildChain : Nat → Except String NestedVariableDefinition
  | 0 => mkNestedVariableDefinition "leaf" .string false "" .null none
  | n + 1 =>
    match buildChain n with
    | .ok c => mkNestedVariableDefinition "node" .object false "" .null (some [c])
    | .error e => .error e

/-! ### Heap reasoning predicates (C7, C8) -/

mutual

/-- All reference addresses occurring in a value (inside lists too). -/
def valRefs : HVal → List Nat
  | .ref a => [a]
  | .vlist xs => valRefsList xs
  | _ => []

def valRefsList : List HVal → List Nat
  | [] => []
  | x :: rest => valRefs x ++ valRefsList rest

end

/-- All reference addresses occurring in a dict object. -/
def dictRefs : List (String × HVal) → List Nat
  | [] => []
  | (_, v) :: rest => valRefs v ++ dictRefs rest

/-- Every reference in every heap cell is a valid address. -/
def heapWF (h : Heap) : Bool :=
  h.cells.all (fun d => (dictRefs d).all (fun r => r < h.cells.length))

/-- Every reference stored in the pool is a valid address of the heap. -/
def poolWF (h : Heap) (p : Pool) : Bool :=
  p.all (fun kv => (valRefs kv.2).all (fun r => r < h.cells.length))

def isRefB : HVal → Bool
  | .ref _ => true
  | _ => false

/-- One heap extends another by appending cells. -/
def HeapExtends (h h2 : Heap) : Prop :=
  ∃ ext, h2.cells = h.cells ++ ext

/-- The dict graphs under address `a` of `hA` and address `b` of `hB` agree
up to depth `fuel`: same keys, reference bindings point to agreeing dicts,
non-reference bindings are non-references on both sides.  This is what a
faithful deep copy guarantees and all the path walks can observe. -/
def RefSim (hA hB : Heap) : Nat → Nat → Nat → Prop
  | 0, _, _ => True
  | fuel + 1, a, b =>
    ∀ k, (hdictGetOpt (hA.read a) k = none ↔ hdictGetOpt (hB.read b) k = none) ∧
      (∀ a2, hdictGetOpt (hA.read a) k = some (.ref a2) →
        ∃ b2, hdictGetOpt (hB.read b) k = some (.ref b2) ∧ RefSim hA hB fuel a2 b2) ∧
      (∀ v, hdictGetOpt (hA.read a) k = some v → isRefB v = false →
        ∃ w, hdictGetOpt (hB.read b) k = some w ∧ isRefB w = false)

/-- Region property established by the copy: every cell at or above `n` has
its references inside `[n, a)` — strictly below the referring cell, since
the copy allocates children before parents. -/
def RegionDescAbove (n : Nat) (h : Heap) : Prop :=
  ∀ a, n ≤ a → ∀ r ∈ dictRefs (h.read a), n ≤ r ∧ r < a

/-- Every cell below `n` only references cells below `n`. -/
def ClosedBelow (n : Nat) (h : Heap) : Prop :=
  ∀ a, a < n → ∀ r ∈ dictRefs (h.read a), r < n

/-- The two-cell heap of the repo's `set_nested` unit tests:
`{"name": "John", "nested": {"value": "original"}}` stored as cell 0 with a
reference to cell 1. -/
def exampleHeap : Heap :=
  ⟨[[("name", HVal.vstr "John"), ("nested", HVal.ref 1)],
    [("value", HVal.vstr "original")]]⟩

/-- The pool holding that object under `("node_1", "user")`. -/
def examplePool : Pool := [(("node_1", "user"), HVal.ref 0)]

/-- The heap after `set_nested_value .. "nested.value" "modified"`: the two
original cells are untouched; cells 2 and 3 are the copy, with the new
value written into the copy. -/
def exampleResultHeap : Heap :=
  ⟨[[("name", HVal.vstr "John"), ("nested", HVal.ref 1)],
    [("value", HVal.vstr "original")],
    [("value", HVal.vstr "modified")],
    [("name", HVal.vstr "John"), ("nested", HVal.ref 2)]]⟩

/-- The pool after the update: the entry now references the copy. -/
def exampleResultPool : Pool := [(("node_1", "user"), HVal.ref 3)]

/-! ## Theorems -/

/-! ### Generic helper lemmas -/

theorem NestedVariableDefinition.indOn {P : NestedVariableDefinition → Prop}
    (h : ∀ nm ty req desc dv ch,
      (∀ cs, ch = some cs → ∀ c ∈ cs, P c) → P (.mk nm ty req desc dv ch)) :
    ∀ d, P d := by
  intro d
  refine @NestedVariableDefinition.rec P
    (fun o => ∀ cs, o = some cs → ∀ c ∈ cs, P c)
    (fun l => ∀ c ∈ l, P c)
    ?_ ?_ ?_ ?_ ?_ d
  · intro nm ty req desc dv ch ih
    exact h nm ty req desc dv ch ih
  · intro cs hcs
    cases hcs
  · intro l hl cs hcs
    cases hcs
    intro c hc
    exact hl c hc
  · intro c hc
    cases hc
  · intro hd tl hhd htl c hc
    cases hc with
    | head => exact hhd
    | tail _ h2 => exact htl c h2

theorem pyIsNone_iff (v : JValue) : pyIsNone v = true ↔ v = .null := by
  cases v <;> simp [pyIsNone]

theorem ofTag_value (t : NestedVariableType) :
    NestedVariableType.ofTag t.value = some t := by
  cases t <;> decide

theorem value_ne_empty (t : NestedVariableType) : t.value ≠ "" := by
  cases t <;> decide

theorem namePattern_ne_empty {s : String} (h : matchesVariableNamePattern s = true) :
    s ≠ "" := by
  intro he
  subst he
  simp [matchesVariableNamePattern, nameChars] at h

theorem wfList_mem {cs : List NestedVariableDefinition}
    (h : wfList cs = true) : ∀ c ∈ cs, wfDef c = true := by
  induction cs with
  | nil => intro c hc; cases hc
  | cons hd tl ih =>
    rw [wfList] at h
    simp only [Bool.and_eq_true] at h
    intro c hc
    cases hc with
    | head => exact h.1
    | tail _ h2 => exact ih h.2 c h2

theorem noEmptyChildrenList_mem {cs : List NestedVariableDefinition}
    (h : noEmptyChildrenList cs = true) : ∀ c ∈ cs, noEmptyChildrenDef c = true := by
  induction cs with
  | nil => intro c hc; cases hc
  | cons hd tl ih =>
    rw [noEmptyChildrenList] at h
    simp only [Bool.and_eq_true] at h
    intro c hc
    cases hc with
    | head => exact h.1
    | tail _ h2 => exact ih h.2 c h2

/-! ### `pySet` and `collectDuplicates` versus `Nodup` -/

theorem pySet_foldl_length_le (xs acc : List String) :
    (xs.foldl (fun a x => if x ∈ a then a else a ++ [x]) acc).length ≤
      acc.length + xs.length := by
  induction xs generalizing acc with
  | nil => simp
  | cons hd tl ih =>
    simp only [List.foldl_cons]
    by_cases h : hd ∈ acc
    · simp only [h, if_pos]
      calc (tl.foldl _ acc).length ≤ acc.length + tl.length := ih acc
        _ ≤ acc.length + (hd :: tl).length := by simp
    · simp only [h, if_neg, not_false_iff]
      calc (tl.foldl _ (acc ++ [hd])).length ≤ (acc ++ [hd]).length + tl.length := ih _
        _ = acc.length + (hd :: tl).length := by simp [Nat.add_comm, Nat.add_assoc, Nat.add_left_comm]

theorem pySet_foldl_length_eq_iff (xs : List String) : ∀ acc : List String,
    ((xs.foldl (fun a x => if x ∈ a then a else a ++ [x]) acc).length =
      acc.length + xs.length ↔ (xs.Nodup ∧ ∀ x ∈ xs, x ∉ acc)) := by
  induction xs with
  | nil => intro acc; simp
  | cons hd tl ih =>
    intro acc
    simp only [List.foldl_cons]
    by_cases h : hd ∈ acc
    · simp only [h, if_pos]
      constructor
      · intro he
        exfalso
        have := pySet_foldl_length_le tl acc
        simp [List.length_cons] at he
        omega
      · intro ⟨_, hall⟩
        exact absurd h (hall hd (List.mem_cons_self hd tl))
    · simp only [h, if_neg, not_false_iff]
      rw [show acc.length + (hd :: tl).length = (acc ++ [hd]).length + tl.length by
        simp [Nat.add_comm, Nat.add_assoc, Nat.add_left_comm]]
      rw [ih (acc ++ [hd])]
      constructor
      · intro ⟨hnd, hall⟩
        have hne : hd ∉ tl := by
          intro hmem
          have := hall hd hmem
          simp at this
        refine ⟨List.nodup_cons.mpr ⟨hne, hnd⟩, ?_⟩
        intro x hx
        cases hx with
        | head => exact h
        | tail _ h2 =>
          have := hall x h2
          simp at this
          exact this.1
      · intro ⟨hnd, hall⟩
        rw [List.nodup_cons] at hnd
        refine ⟨hnd.2, ?_⟩
        intro x hx
        simp only [List.mem_append, List.mem_singleton, not_or]
        refine ⟨hall x (List.mem_cons_of_mem hd hx), ?_⟩
        intro he
        subst he
        exact hnd.1 hx

theorem pySet_length_iff (xs : List String) :
    (pySet xs).length = xs.length ↔ xs.Nodup := by
  have := pySet_foldl_length_eq_iff xs []
  simp only [List.length_nil, Nat.zero_add] at this
  rw [pySet, this]
  simp

theorem collectDuplicates_aux (names : List String) :
    ∀ seen : List String, names.Nodup → (∀ x ∈ names, x ∉ seen) →
    (names.foldl
      (fun (acc : List String × List String) nm =>
        ((if nm ∈ acc.1 then acc.1 else acc.1 ++ [nm]),
         (if nm ∈ acc.1 && nm ∉ acc.2 then acc.2 ++ [nm] else acc.2)))
      (seen, [])).2 = [] := by
  induction names with
  | nil => intro seen _ _; simp
  | cons hd tl ih =>
    intro seen hnd hall
    rw [List.nodup_cons] at hnd
    have hhd : hd ∉ seen := hall hd (List.mem_cons_self hd tl)
    rw [List.foldl_cons]
    simp only [hhd, Bool.false_and, decide_False, if_neg, if_false,
      Bool.false_eq_true, not_false_eq_true, List.nil_append]
    apply ih (seen ++ [hd]) hnd.2
    intro x hx
    simp only [List.mem_append, List.mem_singleton, not_or]
    refine ⟨hall x (List.mem_cons_of_mem hd hx), ?_⟩
    intro he
    subst he
    exact hnd.1 hx

theorem collectDuplicates_eq_nil {names : List String} (h : names.Nodup) :
    collectDuplicates names = [] := by
  rw [collectDuplicates]
  exact collectDuplicates_aux names [] h (by intro x _; simp)

/-! ### Depth lemmas -/

theorem get_max_depth_pos (d : NestedVariableDefinition) : 1 ≤ get_max_depth d := by
  cases d with
  | mk nm ty req desc dv ch =>
    cases ch with
    | none => simp [get_max_depth]
    | some cs =>
      rw [get_max_depth]
      split <;> omega

theorem get_max_depth_list_mem {cs : List NestedVariableDefinition} {c : NestedVariableDefinition}
    (h : c ∈ cs) : get_max_depth c ≤ get_max_depth_list cs := by
  induction cs with
  | nil => cases h
  | cons hd tl ih =>
    rw [get_max_depth_list]
    cases h with
    | head => exact Nat.le_max_left _ _
    | tail _ h2 => exact Nat.le_trans (ih h2) (Nat.le_max_right _ _)

theorem get_max_depth_list_attained {cs : List NestedVariableDefinition} (h : cs ≠ []) :
    ∃ c ∈ cs, get_max_depth_list cs = get_max_depth c := by
  induction cs with
  | nil => exact absurd rfl h
  | cons hd tl ih =>
    rw [get_max_depth_list]
    by_cases htl : tl = []
    · subst htl
      exact ⟨hd, List.mem_cons_self hd [], by rw [get_max_depth_list]; omega⟩
    · obtain ⟨c, hc, hceq⟩ := ih htl
      by_cases hcmp : get_max_depth_list tl ≤ get_max_depth hd
      · exact ⟨hd, List.mem_cons_self hd tl, by omega⟩
      · exact ⟨c, List.mem_cons_of_mem hd hc, by omega⟩

theorem mem_validate_definition_children {cs : List NestedVariableDefinition}
    {c : NestedVariableDefinition} {depth : Nat} {path : String} {e : ValidationError}
    (hc : c ∈ cs) (he : e ∈ validate_definition c depth path) :
    e ∈ validate_definition_children cs depth path := by
  induction cs with
  | nil => cases hc
  | cons hd tl ih =>
    rw [validate_definition_children]
    cases hc with
    | head => exact List.mem_append_left _ he
    | tail _ h2 => exact List.mem_append_right _ (ih h2)

theorem validate_definition_children_nil {cs : List NestedVariableDefinition}
    {depth : Nat} {path : String}
    (h : ∀ c ∈ cs, validate_definition c depth path = []) :
    validate_definition_children cs depth path = [] := by
  induction cs with
  | nil => rw [validate_definition_children]
  | cons hd tl ih =>
    rw [validate_definition_children, h hd (List.mem_cons_self hd tl), ih]
    · simp
    · intro c hc
      exact h c (List.mem_cons_of_mem hd hc)

theorem validate_definition_within (d : NestedVariableDefinition) :
    ∀ depth path, wfDef d = true → depth + get_max_depth d ≤ 6 →
      validate_definition d depth path = [] := by
  induction d using NestedVariableDefinition.indOn with
  | _ nm ty req desc dv ch ih =>
    intro depth path hwf hle
    have hpos := get_max_depth_pos (.mk nm ty req desc dv ch)
    have hdep : ¬(depth > MAX_NESTING_DEPTH) := by
      simp only [MAX_NESTING_DEPTH]
      omega
    rw [validate_definition.eq_def]
    simp only [hdep, if_neg, if_false, not_false_eq_true]
    cases ch with
    | none => rfl
    | some cs =>
      by_cases hemp : cs.isEmpty
      · simp [hemp]
      · simp only [hemp, if_neg, if_false, Bool.false_eq_true, not_false_eq_true]
        rw [wfDef] at hwf
        simp only [Bool.and_eq_true, Bool.or_eq_true, decide_eq_true_eq] at hwf
        obtain ⟨hpat, hch, hlist⟩ := hwf
        have hcs : ¬cs.isEmpty = true := by simp [hemp]
        have hnest : ty.is_nestable = true ∧
            (cs.map NestedVariableDefinition.name).length =
              (pySet (cs.map NestedVariableDefinition.name)).length := by
          cases hch with
          | inl h0 => exact absurd h0 hcs
          | inr h0 => exact h0
        simp only [hnest.1, Bool.not_true, Bool.false_eq_true, if_neg, if_false,
          not_false_eq_true]
        have hnodup : (cs.map NestedVariableDefinition.name).Nodup := by
          rw [← pySet_length_iff]
          omega
        rw [collectDuplicates_eq_nil hnodup]
        simp only [List.isEmpty_nil, if_pos, List.nil_append]
        apply validate_definition_children_nil
        intro c hc
        have hgd : get_max_depth (.mk nm ty req desc dv (some cs)) =
            1 + get_max_depth_list cs := by
          rw [get_max_depth]
          simp [hemp]
        have hcle := get_max_depth_list_mem hc
        exact ih cs rfl c hc (depth + 1) (joinPath path nm) (wfList_mem hlist c hc)
          (by omega)

theorem validate_definition_deep (d : NestedVariableDefinition) :
    ∀ depth path, wfDef d = true → 6 < depth + get_max_depth d →
      ∃ e ∈ validate_definition d depth path, e.error_code = "MAX_DEPTH_EXCEEDED" := by
  induction d using NestedVariableDefinition.indOn with
  | _ nm ty req desc dv ch ih =>
    intro depth path hwf hgt
    by_cases hdep : depth > MAX_NESTING_DEPTH
    · rw [validate_definition.eq_def]
      simp only [hdep, if_pos]
      exact ⟨_, List.mem_singleton_self _, rfl⟩
    · have hdep5 : depth ≤ 5 := by
        simp only [MAX_NESTING_DEPTH] at hdep
        omega
      cases ch with
      | none =>
        exfalso
        rw [get_max_depth] at hgt
        omega
      | some cs =>
        have hgd2 : 2 ≤ get_max_depth (.mk nm ty req desc dv (some cs)) := by omega
        by_cases hemp : cs.isEmpty
        · exfalso
          rw [get_max_depth] at hgd2
          simp [hemp] at hgd2
        · have hcs : cs ≠ [] := by
            intro h0
            subst h0
            simp at hemp
          rw [wfDef] at hwf
          simp only [Bool.and_eq_true, Bool.or_eq_true, decide_eq_true_eq] at hwf
          obtain ⟨hpat, hch, hlist⟩ := hwf
          have hnest : ty.is_nestable = true := by
            cases hch with
            | inl h0 => exact absurd h0 (by simp [hemp])
            | inr h0 => exact h0.1
          obtain ⟨c, hc, hceq⟩ := get_max_depth_list_attained hcs
          have hgd : get_max_depth (.mk nm ty req desc dv (some cs)) =
              1 + get_max_depth_list cs := by
            rw [get_max_depth]
            simp [hemp]
          obtain ⟨e, he, hecode⟩ := ih cs rfl c hc (depth + 1) (joinPath path nm)
            (wfList_mem hlist c hc) (by omega)
          refine ⟨e, ?_, hecode⟩
          rw [validate_definition.eq_def]
          simp only [hdep, if_neg, if_false, not_false_eq_true, hemp,
            Bool.false_eq_true, hnest, Bool.not_true]
          exact List.mem_append_right _ (mem_validate_definition_children hc he)

/-- C4: for well-formed definition trees (the construction invariant), a
tree of at most `MAX_NESTING_DEPTH` levels produces no schema errors, any
tree of more than `MAX_NESTING_DEPTH` levels (in particular of exactly
`MAX_NESTING_DEPTH + 1`) produces at least one `MAX_DEPTH_EXCEEDED` error,
when the depth check fires at a node validation returns just that error
for the subtree (no further recursion), and the children loop keeps every
sibling subtree's errors. -/
theorem C4_depth_boundary :
    (∀ d, wfDef d = true → get_max_depth d ≤ MAX_NESTING_DEPTH →
      validate_definition d 1 "" = []) ∧
    (∀ d, wfDef d = true → MAX_NESTING_DEPTH < get_max_depth d →
      ∃ e ∈ validate_definition d 1 "", e.error_code = "MAX_DEPTH_EXCEEDED") ∧
    (∀ d depth path, MAX_NESTING_DEPTH < depth →
      validate_definition d depth path =
        [{ path := joinPath path d.name,
           message := "Maximum nesting depth of " ++ toString MAX_NESTING_DEPTH ++ " exceeded",
           error_code := "MAX_DEPTH_EXCEEDED" }]) ∧
    (∀ cs depth path c e, c ∈ cs → e ∈ validate_definition c depth path →
      e ∈ validate_definition_children cs depth path) := by
  refine ⟨?_, ?_, ?_, ?_⟩
  · intro d hwf hle
    exact validate_definition_within d 1 "" hwf
      (by simp only [MAX_NESTING_DEPTH] at hle; omega)
  · intro d hwf hgt
    exact validate_definition_deep d 1 "" hwf
      (by simp only [MAX_NESTING_DEPTH] at hgt; omega)
  · intro d depth path hgt
    cases d with
    | mk nm ty req desc dv ch =>
      rw [validate_definition.eq_def]
      have : depth > MAX_NESTING_DEPTH := hgt
      simp only [this, if_pos, NestedVariableDefinition.name]
  · intro cs depth path c e hc he
    exact mem_validate_definition_children hc he

/-- Witness for C4 at concrete inputs: the 5-level chain validates clean,
the 6-level chain yields a `MAX_DEPTH_EXCEEDED` error. -/
theorem C4_depth_boundary_witness :
    wfDef (chainDef 4) = true ∧ get_max_depth (chainDef 4) ≤ MAX_NESTING_DEPTH ∧
    validate_definition (chainDef 4) 1 "" = [] ∧
    wfDef (chainDef 5) = true ∧ MAX_NESTING_DEPTH < get_max_depth (chainDef 5) ∧
    (∃ e ∈ validate_definition (chainDef 5) 1 "", e.error_code = "MAX_DEPTH_EXCEEDED") := by
  have h1 : wfDef (chainDef 4) = true := by
    simp [chainDef, wfDef, wfList, matchesVariableNamePattern, nameChars, isAsciiLetter,
      isNameChar, NestedVariableType.is_nestable, pySet, NestedVariableDefinition.name]
  have h2 : get_max_depth (chainDef 4) ≤ MAX_NESTING_DEPTH := by
    simp [chainDef, get_max_depth, get_max_depth_list, MAX_NESTING_DEPTH]
  have h3 : wfDef (chainDef 5) = true := by
    simp [chainDef, wfDef, wfList, matchesVariableNamePattern, nameChars, isAsciiLetter,
      isNameChar, NestedVariableType.is_nestable, pySet, NestedVariableDefinition.name]
  have h4 : MAX_NESTING_DEPTH < get_max_depth (chainDef 5) := by
    simp [chainDef, get_max_depth, get_max_depth_list, MAX_NESTING_DEPTH]
  exact ⟨h1, h2, C4_depth_boundary.1 (chainDef 4) h1 h2, h3, h4,
    C4_depth_boundary.2.1 (chainDef 5) h3 h4⟩

/-! ### Chain construction lemmas (C10) -/

theorem buildChain_ok : ∀ n, buildChain n = .ok (chainDef n) := by
  intro n
  induction n with
  | zero => rfl
  | succ n ih =>
    rw [buildChain, ih]
    rfl

theorem chainDef_depth : ∀ n, get_max_depth (chainDef n) = n + 1 := by
  intro n
  induction n with
  | zero => rfl
  | succ n ih =>
    rw [chainDef, get_max_depth]
    simp only [List.isEmpty_cons, Bool.false_eq_true, if_neg, if_false, not_false_eq_true]
    rw [get_max_depth_list, get_max_depth_list, ih]
    omega

theorem chainDef_wf : ∀ n, wfDef (chainDef n) = true := by
  intro n
  induction n with
  | zero => rfl
  | succ n ih =>
    rw [chainDef, wfDef]
    simp only [Bool.and_eq_true]
    refine ⟨rfl, ?_, ?_⟩
    · simp [NestedVariableType.is_nestable, pySet, NestedVariableDefinition.name]
    · rw [wfList, wfList]
      simp [ih]

/-- C10: the pydantic constructor does not enforce the depth bound — for
every `n > MAX_NESTING_DEPTH` a chain of depth `n` constructs successfully,
and the violation is reported afterwards by both `validate_depth` and
`validate_definition`. -/
theorem C10_construction_depth_unbounded :
    ∀ n, MAX_NESTING_DEPTH < n →
      ∃ d, buildChain (n - 1) = .ok d ∧ get_max_depth d = n ∧
        validate_depth d MAX_NESTING_DEPTH ≠ [] ∧
        ∃ e ∈ validate_definition d 1 "", e.error_code = "MAX_DEPTH_EXCEEDED" := by
  intro n hn
  have hn1 : n - 1 + 1 = n := by
    simp only [MAX_NESTING_DEPTH] at hn
    omega
  refine ⟨chainDef (n - 1), buildChain_ok (n - 1), by rw [chainDef_depth, hn1], ?_, ?_⟩
  · rw [validate_depth]
    simp only [chainDef_depth, hn1]
    have : n > MAX_NESTING_DEPTH := hn
    simp [this]
  · exact validate_definition_deep (chainDef (n - 1)) 1 "" (chainDef_wf (n - 1))
      (by rw [chainDef_depth, hn1]; simp only [MAX_NESTING_DEPTH] at hn; omega)

/-- Witness for C10 at `n = 6`. -/
theorem C10_construction_depth_unbounded_witness :
    MAX_NESTING_DEPTH < 6 ∧
    ∃ d, buildChain 5 = .ok d ∧ get_max_depth d = 6 ∧
      validate_depth d MAX_NESTING_DEPTH ≠ [] ∧
      ∃ e ∈ validate_definition d 1 "", e.error_code = "MAX_DEPTH_EXCEEDED" :=
  ⟨by decide, C10_construction_depth_unbounded 6 (by decide)⟩

/-! ### C6: construction-time checks -/

/-- C6 (amended): construction through the pydantic validators succeeds
exactly when the name matches the pattern and any NON-EMPTY children list
sits on a nestable type with pairwise distinct child names; an empty
children sequence (present but empty) is not rejected on any type. -/
theorem C6_construction_checks (nm : String) (ty : NestedVariableType) (req : Bool)
    (desc : String) (dv : JValue) (ch : Option (List NestedVariableDefinition)) :
    (∃ d, mkNestedVariableDefinition nm ty req desc dv ch = .ok d) ↔
      (matchesVariableNamePattern nm = true ∧
        ∀ cs, ch = some cs → cs ≠ [] →
          (ty.is_nestable = true ∧ (cs.map NestedVariableDefinition.name).Nodup)) := by
  rw [mkNestedVariableDefinition.eq_def]
  by_cases hpat : matchesVariableNamePattern nm = true
  · simp only [hpat, Bool.not_true, Bool.false_eq_true, if_neg, if_false, not_false_eq_true,
      true_and]
    cases ch with
    | none =>
      simp only [exists_eq]
      constructor
      · intro _ cs hcs
        cases hcs
      · intro _
        exact ⟨_, rfl⟩
    | some cs =>
      by_cases hemp : cs.length > 0
      · have hne : cs ≠ [] := by
          intro h0
          subst h0
          simp at hemp
        by_cases hnest : ty.is_nestable = true
        · simp only [hemp, if_pos, hnest, Bool.not_true, Bool.false_eq_true, if_neg,
            if_false, not_false_eq_true]
          by_cases hdup : (cs.map NestedVariableDefinition.name).length =
              (pySet (cs.map NestedVariableDefinition.name)).length
          · simp only [hdup, ne_eq, not_true_eq_false, if_neg, if_false, not_false_eq_true]
            constructor
            · intro _ cs2 hcs2 _
              cases hcs2
              exact ⟨trivial, (pySet_length_iff _).mp hdup.symm⟩
            · intro _
              exact ⟨_, rfl⟩
          · simp only [ne_eq, hdup, not_false_eq_true, if_pos]
            constructor
            · intro ⟨d, hd⟩
              cases hd
            · intro hall
              exfalso
              have := (hall cs rfl hne).2
              rw [← pySet_length_iff] at this
              exact hdup this.symm
        · simp only [hemp, if_pos, hnest]
          simp only [Bool.not_eq_true] at hnest
          simp only [hnest, Bool.not_false, if_pos]
          constructor
          · intro ⟨d, hd⟩
            cases hd
          · intro hall
            exfalso
            exact Bool.false_ne_true (hall cs rfl hne).1
      · have : cs = [] := by
          cases cs with
          | nil => rfl
          | cons a b => simp at hemp
        subst this
        simp only [List.length_nil, gt_iff_lt, Nat.lt_irrefl, if_neg, if_false,
          not_false_eq_true, exists_eq]
        constructor
        · intro _ cs2 hcs2 hne2
          cases hcs2
          exact absurd rfl hne2
        · intro _
          exact ⟨_, rfl⟩
  · simp only [Bool.not_eq_true] at hpat
    simp only [hpat, Bool.not_false, if_pos]
    constructor
    · intro ⟨d, hd⟩
      cases hd
    · intro ⟨h1, _⟩
      exact absurd h1 Bool.false_ne_true

/-- Witness for C6: a nestable construction succeeds through the iff. -/
theorem C6_construction_checks_witness :
    ∃ d, mkNestedVariableDefinition "user" .object false "" .null
      (some [.mk "name" .string true "" .null none]) = .ok d :=
  (C6_construction_checks "user" .object false "" .null
    (some [.mk "name" .string true "" .null none])).mpr
    (by
      refine ⟨by decide, ?_⟩
      intro cs hcs _
      cases hcs
      refine ⟨by decide, ?_⟩
      simp [NestedVariableDefinition.name])

/-- C6 counterexample: the claim as stated says construction raises
whenever children are PRESENT on a non-nestable type; but a present empty
children sequence on type `string` constructs successfully. -/
theorem C6_counterexample :
    mkNestedVariableDefinition "x" .string false "" .null (some []) =
      .ok (.mk "x" .string false "" .null (some [])) ∧
    NestedVariableType.is_nestable .string = false :=
  ⟨rfl, rfl⟩

/-! ### Serializer round-trip (C1) -/

theorem serialize_definition_list_cons (c : NestedVariableDefinition)
    (rest : List NestedVariableDefinition) :
    serialize_definition_list (c :: rest) =
      serialize_definition c :: serialize_definition_list rest := by
  rw [serialize_definition_list]

theorem deserialize_definition_list_ok {cs : List NestedVariableDefinition} {fuel : Nat}
    (h : ∀ c ∈ cs, deserialize_definition fuel (serialize_definition c) = .ok c) :
    deserialize_definition_list fuel (serialize_definition_list cs) = .ok cs := by
  induction cs with
  | nil => rw [serialize_definition_list, deserialize_definition_list]
  | cons hd tl ih =>
    rw [serialize_definition_list_cons, deserialize_definition_list,
      h hd (List.mem_cons_self hd tl), ih (fun c hc => h c (List.mem_cons_of_mem hd hc))]

/-- C1 (amended): `deserialize(serialize(d)) == d` holds for every valid
tree in which no node carries an empty (as opposed to absent) children
sequence — including every value of `default_value` other than `None`; a
node with `children = some []` round-trips to `children = none` instead
(see the counterexample). -/
theorem C1_serializer_roundtrip (d : NestedVariableDefinition) :
    ∀ fuel, wfDef d = true → noEmptyChildrenDef d = true →
      get_max_depth d ≤ fuel →
      deserialize_definition fuel (serialize_definition d) = .ok d := by
  induction d using NestedVariableDefinition.indOn with
  | _ nm ty req desc dv ch ih =>
    intro fuel hwf hne hfuel
    have hpos := get_max_depth_pos (.mk nm ty req desc dv ch)
    obtain ⟨f, rfl⟩ : ∃ f, fuel = f + 1 := by
      cases fuel with
      | zero => omega
      | succ f => exact ⟨f, rfl⟩
    rw [wfDef.eq_def] at hwf
    simp only [Bool.and_eq_true] at hwf
    have hpat := hwf.1
    have hnm : nm ≠ "" := namePattern_ne_empty hpat
    have htyne : ty.value ≠ "" := value_ne_empty ty
    rw [serialize_definition.eq_def, deserialize_definition.eq_def]
    cases ch with
    | none =>
      by_cases hdv : pyIsNone dv = true
      · rw [pyIsNone_iff] at hdv
        subst hdv
        simp only [pyIsNone, Bool.not_true, Bool.false_eq_true, if_neg, if_false,
          not_false_eq_true, List.nil_append, List.append_nil]
        simp [pyDictGet, dictGetOpt, pyTruthy, hnm, htyne, ofTag_value,
          mkNestedVariableDefinition, hpat]
      · have hdvf : pyIsNone dv = false := by
          revert hdv
          cases pyIsNone dv <;> simp
        simp only [hdvf, Bool.not_false, if_pos, List.append_nil]
        simp [pyDictGet, dictGetOpt, pyTruthy, hnm, htyne, ofTag_value,
          mkNestedVariableDefinition, hpat, hdvf]
    | some cs =>
      have hchOne : (!cs.isEmpty && noEmptyChildrenList cs) = true := by
        rw [noEmptyChildrenDef] at hne
        exact hne
      simp only [Bool.and_eq_true, Bool.not_eq_true'] at hchOne
      obtain ⟨hcsne, hnel⟩ := hchOne
      have hcs : cs ≠ [] := by
        cases cs with
        | nil => simp at hcsne
        | cons a b => simp
      have hlen0 : 0 < cs.length := List.length_pos.mpr hcs
      have hwfl : wfList cs = true := by
        have h2 := hwf.2
        simp only [hcsne, Bool.false_or, Bool.and_eq_true] at h2
        exact h2.2
      have hnest : ty.is_nestable = true := by
        have h2 := hwf.2
        simp only [hcsne, Bool.false_or, Bool.and_eq_true, decide_eq_true_eq] at h2
        exact h2.1.1
      have hlen : (cs.map NestedVariableDefinition.name).length =
          (pySet (cs.map NestedVariableDefinition.name)).length := by
        have h2 := hwf.2
        simp only [hcsne, Bool.false_or, Bool.and_eq_true, decide_eq_true_eq] at h2
        exact h2.1.2
      have hndup : ¬((cs.map NestedVariableDefinition.name).length ≠
          (pySet (cs.map NestedVariableDefinition.name)).length) := by omega
      have hlen2 : cs.length = (pySet (cs.map NestedVariableDefinition.name)).length := by
        rw [List.length_map] at hlen
        exact hlen
      have hfc : ∀ c ∈ cs, get_max_depth c ≤ f := by
        intro c hc
        have hgd : get_max_depth (.mk nm ty req desc dv (some cs)) =
            1 + get_max_depth_list cs := by
          rw [get_max_depth]
          simp [hcsne]
        have := get_max_depth_list_mem hc
        omega
      have hdes : deserialize_definition_list f (serialize_definition_list cs) = .ok cs :=
        deserialize_definition_list_ok (fun c hc =>
          ih cs rfl c hc f (wfList_mem hwfl c hc) (noEmptyChildrenList_mem hnel c hc)
            (hfc c hc))
      have hsl : (serialize_definition_list cs).isEmpty = false := by
        cases cs with
        | nil => exact absurd rfl hcs
        | cons a b => rw [serialize_definition_list_cons]; rfl
      by_cases hdv : pyIsNone dv = true
      · rw [pyIsNone_iff] at hdv
        subst hdv
        simp only [pyIsNone, Bool.not_true, Bool.false_eq_true, if_neg, if_false,
          not_false_eq_true, List.nil_append, hcsne]
        simp [pyDictGet, dictGetOpt, pyTruthy, hnm, htyne, ofTag_value,
          mkNestedVariableDefinition, hpat, hcsne, hsl, hdes, hnest, hlen0, hndup, hlen2]
      · have hdvf : pyIsNone dv = false := by
          revert hdv
          cases pyIsNone dv <;> simp
        simp only [hdvf, Bool.not_false, if_pos, hcsne]
        simp [pyDictGet, dictGetOpt, pyTruthy, hnm, htyne, ofTag_value,
          mkNestedVariableDefinition, hpat, hcsne, hsl, hdes, hnest, hlen0, hndup, hdvf,
          hlen2]

/-- Witness for C1 at a concrete two-level tree with a non-`None` default. -/
theorem C1_serializer_roundtrip_witness :
    wfDef (.mk "user" .object true "desc" (.str "dft")
      (some [.mk "name" .string true "" .null none])) = true ∧
    noEmptyChildrenDef (.mk "user" .object true "desc" (.str "dft")
      (some [.mk "name" .string true "" .null none])) = true ∧
    get_max_depth (.mk "user" .object true "desc" (.str "dft")
      (some [.mk "name" .string true "" .null none])) ≤ 5 ∧
    deserialize_definition 5 (serialize_definition (.mk "user" .object true "desc" (.str "dft")
      (some [.mk "name" .string true "" .null none]))) =
      .ok (.mk "user" .object true "desc" (.str "dft")
        (some [.mk "name" .string true "" .null none])) := by
  have h1 : wfDef (.mk "user" .object true "desc" (.str "dft")
      (some [.mk "name" .string true "" .null none])) = true := by
    simp [wfDef, wfList, matchesVariableNamePattern, nameChars, isAsciiLetter, isNameChar,
      NestedVariableType.is_nestable, pySet, NestedVariableDefinition.name]
  have h2 : noEmptyChildrenDef (.mk "user" .object true "desc" (.str "dft")
      (some [.mk "name" .string true "" .null none])) = true := by
    simp [noEmptyChildrenDef, noEmptyChildrenList]
  have h3 : get_max_depth (.mk "user" .object true "desc" (.str "dft")
      (some [.mk "name" .string true "" .null none])) ≤ 5 := by
    simp [get_max_depth, get_max_depth_list]
  exact ⟨h1, h2, h3, C1_serializer_roundtrip _ 5 h1 h2 h3⟩

/-- C1 counterexample: a validly constructed tree whose children field is
the EMPTY sequence does not round-trip to a structurally equal tree — the
serializer omits the empty sequence and deserialization yields `children =
None`, which is not equal to `children = []`. -/
theorem C1_counterexample :
    mkNestedVariableDefinition "a" .object false "" .null (some []) =
      .ok (.mk "a" .object false "" .null (some [])) ∧
    deserialize_definition 5 (serialize_definition (.mk "a" .object false "" .null (some []))) =
      .ok (.mk "a" .object false "" .null none) ∧
    NestedVariableDefinition.mk "a" .object false "" .null none ≠
      .mk "a" .object false "" .null (some []) := by
  refine ⟨rfl, ?_, ?_⟩
  · simp [serialize_definition, serialize_definition_list, deserialize_definition,
      pyDictGet, dictGetOpt, pyTruthy, pyIsNone, NestedVariableType.value,
      NestedVariableType.ofTag, mkNestedVariableDefinition, matchesVariableNamePattern,
      nameChars, isAsciiLetter, isNameChar]
  · intro h
    cases h

/-! ### Value-validation lemmas (C2, C3, C5) -/

theorem mem_validate_value_children {cs : List NestedVariableDefinition}
    {entries : List (String × JValue)} {path : String} {c : NestedVariableDefinition}
    {e : ValidationError} (hc : c ∈ cs)
    (he : e ∈ validate_value (pyDictGet entries c.name) c path) :
    e ∈ validate_value_children cs entries path := by
  induction cs with
  | nil => cases hc
  | cons hd tl ih =>
    rw [validate_value_children]
    cases hc with
    | head => exact List.mem_append_left _ he
    | tail _ h2 => exact List.mem_append_right _ (ih h2)

theorem mem_validate_array_object_items {cs : List NestedVariableDefinition}
    {current_path : String} {e : ValidationError} :
    ∀ (items : List JValue) (k i : Nat) (ent : List (String × JValue)),
      items.get? i = some (.dict ent) →
      e ∈ validate_value_children cs ent (current_path ++ "[" ++ toString (k + i) ++ "]") →
      e ∈ validate_array_object_items cs items current_path k := by
  intro items
  induction items with
  | nil => intro k i ent h; cases i <;> cases h
  | cons hd tl ih =>
    intro k i ent hget he
    cases i with
    | zero =>
      simp only [List.get?_cons_zero, Option.some.injEq] at hget
      subst hget
      rw [validate_array_object_items.eq_def]
      have he0 : e ∈ validate_value_children cs ent
          (current_path ++ "[" ++ toString k ++ "]") := by
        have hk : k + 0 = k := Nat.add_zero k
        rw [hk] at he
        exact he
      exact List.mem_append_left _ he0
    | succ i0 =>
      simp only [List.get?_cons_succ] at hget
      rw [validate_array_object_items.eq_def]
      refine List.mem_append_right _ (ih (k + 1) i0 ent hget ?_)
      have hk : k + 1 + i0 = k + (i0 + 1) := by omega
      rw [hk]
      exact he

theorem array_elements_loop_none {array_type : NestedVariableType}
    {isInst : JValue → Bool} {en path : String} :
    ∀ (items : List JValue) (k : Nat),
      (∀ x ∈ items, array_element_check array_type isInst en x = none) →
      array_elements_loop array_type isInst en path items k = none := by
  intro items
  induction items with
  | nil => intro k _; rw [array_elements_loop]
  | cons hd tl ih =>
    intro k hall
    rw [array_elements_loop, hall hd (List.mem_cons_self hd tl)]
    exact ih (k + 1) (fun x hx => hall x (List.mem_cons_of_mem hd hx))

theorem array_elements_loop_first {array_type : NestedVariableType}
    {isInst : JValue → Bool} {en path : String} :
    ∀ (items : List JValue) (k i : Nat) (x : JValue) (msg : String),
      items.get? i = some x →
      array_element_check array_type isInst en x = some msg →
      (∀ j, j < i → ∀ y, items.get? j = some y →
        array_element_check array_type isInst en y = none) →
      array_elements_loop array_type isInst en path items k =
        some { path := path ++ "[" ++ toString (k + i) ++ "]", message := msg,
               error_code := "TYPE_MISMATCH" } := by
  intro items
  induction items with
  | nil => intro k i x msg h; cases i <;> cases h
  | cons hd tl ih =>
    intro k i x msg hget hchk hearlier
    rw [array_elements_loop]
    cases i with
    | zero =>
      simp only [List.get?_cons_zero, Option.some.injEq] at hget
      subst hget
      rw [hchk]
      simp
    | succ i0 =>
      simp only [List.get?_cons_succ] at hget
      have h0 : array_element_check array_type isInst en hd = none :=
        hearlier 0 (Nat.succ_pos i0) hd rfl
      rw [h0]
      have hk : k + 1 + i0 = k + (i0 + 1) := by omega
      rw [ih (k + 1) i0 x msg hget hchk
        (fun j hj y hy => hearlier (j + 1) (Nat.succ_lt_succ hj) y hy), hk]

/-- The five array types with element checks are arrays and list-checked
by `_validate_type`. -/
theorem element_type_map_facts (t : NestedVariableType) (p : (JValue → Bool) × String)
    (h : element_type_map t = some p) :
    type_validators t = some (pyIsList, t.value) ∧ t.is_array = true := by
  cases t <;> cases h <;> exact ⟨rfl, by decide⟩

/-- Shared helper: for a list value against an array type with an element
check, the FIRST violating element (all earlier elements passing) is the
single error `validate_value` returns, at that element's index. -/
theorem validate_value_array_first_error (t : NestedVariableType)
    (isInst : JValue → Bool) (en : String)
    (hmap : element_type_map t = some (isInst, en))
    (nm : String) (req : Bool) (desc : String) (dv : JValue)
    (ch : Option (List NestedVariableDefinition)) (path : String)
    (items : List JValue) (i : Nat) (x : JValue) (msg : String)
    (hget : items.get? i = some x)
    (hchk : array_element_check t isInst en x = some msg)
    (hearlier : ∀ j, j < i → ∀ y, items.get? j = some y →
      array_element_check t isInst en y = none) :
    validate_value (.list items) (.mk nm t req desc dv ch) path =
      [{ path := joinPath path nm ++ "[" ++ toString i ++ "]", message := msg,
         error_code := "TYPE_MISMATCH" }] := by
  obtain ⟨htv, harr⟩ := element_type_map_facts t (isInst, en) hmap
  have hloop := @array_elements_loop_first t isInst en (joinPath path nm)
    items 0 i x msg hget hchk hearlier
  rw [Nat.zero_add] at hloop
  have hvt : validate_type (.list items) t (joinPath path nm) =
      some { path := joinPath path nm ++ "[" ++ toString i ++ "]", message := msg,
             error_code := "TYPE_MISMATCH" } := by
    rw [validate_type, htv]
    simp only [pyIsBool, Bool.and_false, Bool.false_eq_true, if_neg, if_false,
      not_false_eq_true, pyIsList, Bool.not_true, harr, if_pos]
    rw [validate_array_elements, hmap]
    exact hloop
  rw [validate_value.eq_def]
  simp only [pyIsNone, Bool.false_eq_true, if_neg, if_false, not_false_eq_true, hvt]

/-- C2 (amended): `validate_value` accumulates every error across sibling
fields (no sibling's error is ever dropped), but the element type check of
array values SHORT-CIRCUITS: the first violating element is the single
error returned, so later violating elements are not reported. -/
theorem C2_error_accumulation :
    (∀ nm ty req desc dv cs entries path c e,
      c ∈ cs →
      validate_type (.dict entries) ty (joinPath path nm) = none →
      e ∈ validate_value (pyDictGet entries c.name) c (joinPath path nm) →
      e ∈ validate_value (.dict entries) (.mk nm ty req desc dv (some cs)) path) ∧
    (∀ t isInst en nm req desc dv ch path items i x msg,
      element_type_map t = some (isInst, en) →
      items.get? i = some x →
      array_element_check t isInst en x = some msg →
      (∀ j, j < i → ∀ y, items.get? j = some y →
        array_element_check t isInst en y = none) →
      validate_value (.list items) (.mk nm t req desc dv ch) path =
        [{ path := joinPath path nm ++ "[" ++ toString i ++ "]", message := msg,
           error_code := "TYPE_MISMATCH" }]) := by
  constructor
  · intro nm ty req desc dv cs entries path c e hc hvt he
    have hcs : cs.isEmpty = false := by
      cases cs with
      | nil => cases hc
      | cons a b => rfl
    rw [validate_value.eq_def]
    simp only [pyIsNone, Bool.false_eq_true, if_neg, if_false, not_false_eq_true, hvt,
      hcs, List.append_nil]
    exact mem_validate_value_children hc he
  · intro t isInst en nm req desc dv ch path items i x msg hmap hget hchk hearlier
    exact validate_value_array_first_error t isInst en hmap nm req desc dv ch path
      items i x msg hget hchk hearlier

/-- Witness for C2 at concrete inputs: a sibling error is kept, and the
first violating array element is reported at its index. -/
theorem C2_error_accumulation_witness :
    ({ path := "user.age", message := "Expected integer, got str",
       error_code := "TYPE_MISMATCH" } : ValidationError) ∈
      validate_value (.dict [("name", .str "Jo"), ("age", .str "x")])
        (.mk "user" .object true "" .null
          (some [.mk "name" .string true "" .null none,
                 .mk "age" .integer true "" .null none])) "" ∧
    validate_value (.list [.str "a", .int 1]) (.mk "tags" .arrayString true "" .null none) "" =
      [{ path := "tags[1]", message := "Array element expected string, got int",
         error_code := "TYPE_MISMATCH" }] := by
  constructor
  · refine C2_error_accumulation.1 "user" .object true "" .null
      [.mk "name" .string true "" .null none, .mk "age" .integer true "" .null none]
      [("name", .str "Jo"), ("age", .str "x")] "" (.mk "age" .integer true "" .null none)
      _ (by simp) ?_ ?_
    · rfl
    · simp [validate_value.eq_def, validate_type, type_validators, pyDictGet, dictGetOpt,
        pyIsNone, pyIsBool, pyIsInt, pyTypeName, joinPath, NestedVariableDefinition.name]
  · refine C2_error_accumulation.2 .arrayString pyIsStr "string" "tags" true "" .null
      none "" [.str "a", .int 1] 1 (.int 1)
      "Array element expected string, got int" rfl rfl rfl ?_
    intro j hj y hy
    match j, hj with
    | 0, _ => cases hy; rfl

/-- C2 counterexample: validating `["a", 1, 2]` against `array[string]`
reports ONLY the first mismatching element (index 1) — a single error —
although the element at index 2 also violates the element type; the claim
demands one entry per violating element. -/
theorem C2_counterexample :
    validate_value (.list [.str "a", .int 1, .int 2])
      (.mk "tags" .arrayString true "" .null none) "" =
      [{ path := "tags[1]", message := "Array element expected string, got int",
         error_code := "TYPE_MISMATCH" }] ∧
    pyIsStr (.int 2) = false := by
  constructor
  · simp [validate_value, validate_type, type_validators, validate_array_elements,
      element_type_map, array_elements_loop, array_element_check, pyIsNone, pyIsStr,
      pyIsBool, pyIsList, pyTypeName, joinPath, NestedVariableType.is_array,
      NestedVariableType.value, pyStartsWith]
    decide
  · rfl

/-- C3 (amended): for an `array[object]` value, a non-map element is caught
by the ELEMENT TYPE CHECK: the first non-map element yields a single
`TYPE_MISMATCH` (not `INVALID_ARRAY_ELEMENT`) at its index and nothing
else is validated — map elements are NOT checked in that case.  Only when
every element is a map does `validate_value` recurse into the children,
with `path[index]` as the base path for each element, keeping every
element's errors. -/
theorem C3_array_object_elements :
    (∀ nm req desc dv ch path items i x,
      items.get? i = some x → pyIsDict x = false →
      (∀ j, j < i → ∀ y, items.get? j = some y → pyIsDict y = true) →
      validate_value (.list items) (.mk nm .arrayObject req desc dv ch) path =
        [{ path := joinPath path nm ++ "[" ++ toString i ++ "]",
           message := "Array element expected object, got " ++ pyTypeName x,
           error_code := "TYPE_MISMATCH" }]) ∧
    (∀ nm req desc dv cs path items,
      cs ≠ [] → (∀ x ∈ items, pyIsDict x = true) →
      validate_value (.list items) (.mk nm .arrayObject req desc dv (some cs)) path =
        validate_array_object_items cs items (joinPath path nm) 0) ∧
    (∀ nm req desc dv cs path items i ent c e,
      cs ≠ [] → (∀ x ∈ items, pyIsDict x = true) →
      items.get? i = some (.dict ent) → c ∈ cs →
      e ∈ validate_value (pyDictGet ent c.name) c
        (joinPath path nm ++ "[" ++ toString i ++ "]") →
      e ∈ validate_value (.list items) (.mk nm .arrayObject req desc dv (some cs)) path) := by
  have hmain : ∀ nm req desc dv cs path items,
      cs ≠ [] → (∀ x ∈ items, pyIsDict x = true) →
      validate_value (.list items) (.mk nm .arrayObject req desc dv (some cs)) path =
        validate_array_object_items cs items (joinPath path nm) 0 := by
    intro nm req desc dv cs path items hcs hall
    have hvt : validate_type (.list items) .arrayObject (joinPath path nm) = none := by
      rw [validate_type]
      simp only [type_validators, pyIsBool, Bool.and_false, Bool.false_eq_true, if_neg,
        if_false, not_false_eq_true, pyIsList, Bool.not_true]
      have harr : NestedVariableType.arrayObject.is_array = true := by decide
      simp only [harr, if_pos]
      rw [validate_array_elements]
      simp only [element_type_map]
      apply array_elements_loop_none
      intro x hx
      rw [array_element_check]
      simp [hall x hx]
    have hcse : cs.isEmpty = false := by
      cases cs with
      | nil => exact absurd rfl hcs
      | cons a b => rfl
    rw [validate_value.eq_def]
    simp only [pyIsNone, Bool.false_eq_true, if_neg, if_false, not_false_eq_true, hvt,
      hcse, Bool.not_false, Bool.and_self, if_pos, List.nil_append]
    simp
  refine ⟨?_, hmain, ?_⟩
  · intro nm req desc dv ch path items i x hget hx hearlier
    refine validate_value_array_first_error .arrayObject pyIsDict "object" rfl nm req
      desc dv ch path items i x _ hget ?_ ?_
    · rw [array_element_check]
      simp [hx]
    · intro j hj y hy
      rw [array_element_check]
      simp [hearlier j hj y hy]
  · intro nm req desc dv cs path items i ent c e hcs hall hget hc he
    rw [hmain nm req desc dv cs path items hcs hall]
    refine mem_validate_array_object_items items 0 i ent hget ?_
    rw [Nat.zero_add]
    exact mem_validate_value_children hc he

/-- Witness for C3: a mixed list gives the single element-type error; an
all-map list recurses per element, reporting `users[1].name` missing. -/
theorem C3_array_object_elements_witness :
    validate_value (.list [.dict [("name", .str "Jo")], .str "oops"])
      (.mk "users" .arrayObject true "" .null
        (some [.mk "name" .string true "" .null none])) "" =
      [{ path := "users[1]", message := "Array element expected object, got str",
         error_code := "TYPE_MISMATCH" }] ∧
    ({ path := "users[1].name", message := "Required field is missing",
       error_code := "REQUIRED_FIELD_MISSING" } : ValidationError) ∈
      validate_value (.list [.dict [("name", .str "Jo")], .dict []])
        (.mk "users" .arrayObject true "" .null
          (some [.mk "name" .string true "" .null none])) "" := by
  constructor
  · have := C3_array_object_elements.1 "users" true "" .null
      (some [.mk "name" .string true "" .null none]) ""
      [.dict [("name", .str "Jo")], .str "oops"] 1 (.str "oops") rfl rfl
      (by
        intro j hj y hy
        match j, hj with
        | 0, _ => cases hy; rfl)
    rw [this]
    simp [joinPath, pyTypeName]
    decide
  · refine C3_array_object_elements.2.2 "users" true "" .null
      [.mk "name" .string true "" .null none] "" [.dict [("name", .str "Jo")], .dict []]
      1 [] (.mk "name" .string true "" .null none) _ (by simp) ?_ rfl (by simp) ?_
    · intro x hx
      cases hx with
      | head => rfl
      | tail _ h2 =>
        cases h2 with
        | head => rfl
        | tail _ h3 => cases h3
    · have : pyDictGet [] (NestedVariableDefinition.name (.mk "name" .string true "" .null none)) =
          .null := rfl
      rw [this]
      simp [validate_value.eq_def, pyIsNone, joinPath]
      decide

/-- C3 counterexample: a list mixing a map and a non-map element yields a
single `TYPE_MISMATCH` at the non-map index — no `INVALID_ARRAY_ELEMENT`
error, and the map element's missing required child is NOT reported. -/
theorem C3_counterexample :
    validate_value (.list [.dict [], .str "x"])
      (.mk "users" .arrayObject true "" .null
        (some [.mk "name" .string true "" .null none])) "" =
      [{ path := "users[1]", message := "Array element expected object, got str",
         error_code := "TYPE_MISMATCH" }] ∧
    "TYPE_MISMATCH" ≠ "INVALID_ARRAY_ELEMENT" := by
  constructor
  · simp [validate_value, validate_type, type_validators, validate_array_elements,
      element_type_map, array_elements_loop, array_element_check, pyIsNone, pyIsStr,
      pyIsBool, pyIsList, pyIsDict, pyTypeName, joinPath, NestedVariableType.is_array,
      NestedVariableType.value, pyStartsWith]
    decide
  · decide

/-- C5: for a field declared `integer` or `number`, a boolean value yields
exactly one `TYPE_MISMATCH` error (never zero); element-wise, a boolean
element of an `array[integer]` or `array[number]` value — with every
earlier element passing the element check — is reported as the
`TYPE_MISMATCH` at that element's index. -/
theorem C5_boolean_exclusion :
    (∀ nm req desc dv ch path b,
      validate_value (.bool b) (.mk nm .integer req desc dv ch) path =
        [{ path := joinPath path nm, message := "Expected integer, got boolean",
           error_code := "TYPE_MISMATCH" }]) ∧
    (∀ nm req desc dv ch path b,
      validate_value (.bool b) (.mk nm .number req desc dv ch) path =
        [{ path := joinPath path nm, message := "Expected number, got boolean",
           error_code := "TYPE_MISMATCH" }]) ∧
    (∀ nm req desc dv ch path items i b,
      items.get? i = some (.bool b) →
      (∀ j, j < i → ∀ y, items.get? j = some y →
        array_element_check .arrayInteger pyIsInt "integer" y = none) →
      validate_value (.list items) (.mk nm .arrayInteger req desc dv ch) path =
        [{ path := joinPath path nm ++ "[" ++ toString i ++ "]",
           message := "Array element expected integer, got boolean",
           error_code := "TYPE_MISMATCH" }]) ∧
    (∀ nm req desc dv ch path items i b,
      items.get? i = some (.bool b) →
      (∀ j, j < i → ∀ y, items.get? j = some y →
        array_element_check .arrayNumber pyIsNumber "number" y = none) →
      validate_value (.list items) (.mk nm .arrayNumber req desc dv ch) path =
        [{ path := joinPath path nm ++ "[" ++ toString i ++ "]",
           message := "Array element expected number, got boolean",
           error_code := "TYPE_MISMATCH" }]) := by
  refine ⟨?_, ?_, ?_, ?_⟩
  · intro nm req desc dv ch path b
    rw [validate_value.eq_def]
    simp only [pyIsNone, Bool.false_eq_true, if_neg, if_false, not_false_eq_true]
    have hvt : validate_type (.bool b) .integer (joinPath path nm) =
        some { path := joinPath path nm, message := "Expected integer, got boolean",
               error_code := "TYPE_MISMATCH" } := rfl
    rw [hvt]
  · intro nm req desc dv ch path b
    rw [validate_value.eq_def]
    simp only [pyIsNone, Bool.false_eq_true, if_neg, if_false, not_false_eq_true]
    have hvt : validate_type (.bool b) .number (joinPath path nm) =
        some { path := joinPath path nm, message := "Expected number, got boolean",
               error_code := "TYPE_MISMATCH" } := rfl
    rw [hvt]
  · intro nm req desc dv ch path items i b hget hearlier
    exact validate_value_array_first_error .arrayInteger pyIsInt "integer" rfl nm req
      desc dv ch path items i (.bool b) _ hget rfl hearlier
  · intro nm req desc dv ch path items i b hget hearlier
    exact validate_value_array_first_error .arrayNumber pyIsNumber "number" rfl nm req
      desc dv ch path items i (.bool b) _ hget rfl hearlier

/-- Witness for C5: concrete boolean values against `integer`, `number`,
`array[integer]` and `array[number]` fields. -/
theorem C5_boolean_exclusion_witness :
    validate_value (.bool true) (.mk "count" .integer true "" .null none) "" =
      [{ path := "count", message := "Expected integer, got boolean",
         error_code := "TYPE_MISMATCH" }] ∧
    validate_value (.bool false) (.mk "price" .number true "" .null none) "" =
      [{ path := "price", message := "Expected number, got boolean",
         error_code := "TYPE_MISMATCH" }] ∧
    validate_value (.list [.int 1, .int 2, .bool true])
      (.mk "numbers" .arrayInteger true "" .null none) "" =
      [{ path := "numbers[2]", message := "Array element expected integer, got boolean",
         error_code := "TYPE_MISMATCH" }] := by
  refine ⟨?_, ?_, ?_⟩
  · have := C5_boolean_exclusion.1 "count" true "" .null none "" true
    rw [this]
    rfl
  · have := C5_boolean_exclusion.2.1 "price" true "" .null none "" false
    rw [this]
    rfl
  · have := C5_boolean_exclusion.2.2.1 "numbers" true "" .null none ""
      [.int 1, .int 2, .bool true] 2 true rfl
      (by
        intro j hj y hy
        match j, hj with
        | 0, _ => cases hy; rfl
        | 1, _ => cases hy; rfl)
    rw [this]
    simp [joinPath]
    decide

/-! ### Template substitution (C9) -/

theorem takeWhile_append_drop (p : Char → Bool) :
    ∀ l : List Char, l.takeWhile p ++ l.drop (l.takeWhile p).length = l := by
  intro l
  induction l with
  | nil => rfl
  | cons c rest ih =>
    by_cases hc : p c
    · simp only [List.takeWhile_cons, hc, if_pos, List.length_cons, List.drop_succ_cons,
        List.cons_append, List.cons.injEq, true_and]
      exact ih
    · simp only [List.takeWhile_cons, hc, if_neg, Bool.false_eq_true, not_false_eq_true,
        List.length_nil, List.drop_zero, List.nil_append]

theorem matchAt_split_aux {rest rem : List Char}
    (heqdrop : List.drop (List.takeWhile (fun c => decide (c ≠ '#')) rest).length rest =
      '#' :: '\x7d' :: '\x7d' :: rem) :
    '\x7b' :: '\x7b' :: '#' ::
        (List.takeWhile (fun c => decide (c ≠ '#')) rest ++ ['#', '\x7d', '\x7d']) ++ rem =
      '\x7b' :: '\x7b' :: '#' :: rest ∧
    rem.length < ('\x7b' :: '\x7b' :: '#' :: rest).length := by
  have hsplit := takeWhile_append_drop (fun c => decide (c ≠ '#')) rest
  rw [heqdrop] at hsplit
  have hlen := congrArg List.length hsplit
  simp only [List.length_append, List.length_cons] at hlen
  refine ⟨?_, ?_⟩
  · simpa only [List.cons_append, List.append_assoc, List.nil_append,
      List.cons.injEq, true_and] using hsplit
  · simp only [List.length_cons]
    omega

theorem matchAt_split {cs : List Char} {sel : List String} {np : Option String}
    {raw rem : List Char} (h : matchAt cs = some (sel, np, raw, rem)) :
    raw ++ rem = cs ∧ rem.length < cs.length := by
  rw [matchAt.eq_def] at h
  split at h
  · rename_i rest
    dsimp only at h
    split at h
    · rename_i rem2 heqdrop
      split at h
      · cases h
        exact matchAt_split_aux heqdrop
      · cases h
    · cases h
  · cases h

theorem poolGet_nil_pool (h : Heap) (sel : List String) : poolGet h [] sel = none := by
  cases sel with
  | nil => rfl
  | cons a t =>
    cases t with
    | nil => rfl
    | cons b r => rfl

theorem get_nested_value_nil_pool (h : Heap) (sel : List String) (np : Option String) :
    get_nested_value h [] sel np = none := by
  cases np with
  | none => exact poolGet_nil_pool h sel
  | some s =>
    rw [get_nested_value]
    split <;> exact poolGet_nil_pool h _

theorem resubChars_nil_pool (h : Heap) :
    ∀ fuel cs, cs.length ≤ fuel → resubChars h [] fuel cs = cs := by
  intro fuel
  induction fuel with
  | zero =>
    intro cs _
    cases cs with
    | nil => rfl
    | cons c rest => rfl
  | succ f ih =>
    intro cs hle
    cases cs with
    | nil => rfl
    | cons c rest =>
      rw [resubChars]
      cases hm : matchAt (c :: rest) with
      | none =>
        rw [ih rest (by simp at hle; omega)]
      | some quad =>
        obtain ⟨sel, np, raw, rem⟩ := quad
        obtain ⟨hraw, hlt⟩ := matchAt_split hm
        simp only [formatReplacement, get_nested_value_nil_pool]
        rw [ih rem (by simp at hle; simp at hlt; omega)]
        exact hraw

/-- C9 (amended): formatting a template against a pool in which nothing is
stored raises no exception and returns the template UNCHANGED — a
placeholder whose pool resolution is absent is left as the original
double-braced text, not converted to single braces. -/
theorem C9_template_missing_fallback (h : Heap) (template : String) :
    format_with_nested_variables h [] template = template := by
  rw [format_with_nested_variables,
    resubChars_nil_pool h template.data.length template.data (Nat.le_refl _)]

/-- Witness for C9 at the concrete template of the claim. -/
theorem C9_template_missing_fallback_witness :
    format_with_nested_variables ⟨[]⟩ [] "\x7b\x7b#node.missing.path#\x7d\x7d" =
      "\x7b\x7b#node.missing.path#\x7d\x7d" :=
  C9_template_missing_fallback ⟨[]⟩ "\x7b\x7b#node.missing.path#\x7d\x7d"

/-- C9 counterexample: formatting `\x7b\x7b#node.missing.path#\x7d\x7d`
against a pool with nothing stored under `node` does NOT produce the
single-braced literal the claim demands — the original double-braced text
is returned instead. -/
theorem C9_counterexample :
    format_with_nested_variables ⟨[]⟩ [] "\x7b\x7b#node.missing.path#\x7d\x7d" ≠
      "\x7bnode.missing.path\x7d" ∧
    format_with_nested_variables ⟨[]⟩ [] "\x7b\x7b#node.missing.path#\x7d\x7d" =
      "\x7b\x7b#node.missing.path#\x7d\x7d" := by
  have heq : format_with_nested_variables ⟨[]⟩ [] "\x7b\x7b#node.missing.path#\x7d\x7d" =
      "\x7b\x7b#node.missing.path#\x7d\x7d" := by
    rw [format_with_nested_variables, resubChars_nil_pool ⟨[]⟩ _ _ (Nat.le_refl _)]
  refine ⟨?_, heq⟩
  rw [heq]
  decide

/-! ### Heap operation lemmas (C7, C8) -/

theorem Heap.length_write (h : Heap) (a : Nat) (d : List (String × HVal)) :
    (h.write a d).cells.length = h.cells.length := by
  simp [Heap.write]

theorem Heap.read_write_self (h : Heap) (a : Nat) (d : List (String × HVal))
    (ha : a < h.cells.length) : (h.write a d).read a = d := by
  simp [Heap.write, Heap.read, List.getElem?_set_eq_of_lt d ha]

theorem Heap.read_write_ne (h : Heap) (a b : Nat) (d : List (String × HVal))
    (hne : b ≠ a) : (h.write a d).read b = h.read b := by
  simp [Heap.write, Heap.read, List.getElem?_set_ne (fun he => hne he.symm)]

theorem Heap.alloc_fst_len (h : Heap) (d : List (String × HVal)) :
    (h.alloc d).1.cells.length = h.cells.length + 1 := by
  simp [Heap.alloc]

theorem Heap.read_alloc_old (h : Heap) (d : List (String × HVal)) (b : Nat)
    (hb : b < h.cells.length) : (h.alloc d).1.read b = h.read b := by
  simp [Heap.alloc, Heap.read, List.getElem?_append_left hb]

theorem Heap.read_alloc_self (h : Heap) (d : List (String × HVal)) :
    (h.alloc d).1.read h.cells.length = d := by
  simp [Heap.alloc, Heap.read]

theorem hdictGetOpt_set_self (d : List (String × HVal)) (k : String) (v : HVal) :
    hdictGetOpt (hdictSet d k v) k = some v := by
  induction d with
  | nil => simp [hdictSet, hdictGetOpt]
  | cons kv rest ih =>
    obtain ⟨k0, v0⟩ := kv
    by_cases hk : k0 = k
    · subst hk
      simp [hdictSet, hdictGetOpt]
    · simp [hdictSet, hdictGetOpt, hk, ih]

theorem hdictGetOpt_refs {d : List (String × HVal)} {k : String} {v : HVal}
    (h : hdictGetOpt d k = some v) : ∀ r ∈ valRefs v, r ∈ dictRefs d := by
  induction d with
  | nil => cases h
  | cons kv rest ih =>
    obtain ⟨k0, v0⟩ := kv
    rw [hdictGetOpt] at h
    rw [dictRefs]
    by_cases hk : k0 = k
    · simp only [hk, if_pos] at h
      cases h
      intro r hr
      exact List.mem_append_left _ hr
    · simp only [hk, if_neg, not_false_iff] at h
      intro r hr
      exact List.mem_append_right _ (ih h r hr)

theorem HeapExtends.rfl (h : Heap) : HeapExtends h h := ⟨[], by simp⟩

theorem HeapExtends.trans {h1 h2 h3 : Heap} (a : HeapExtends h1 h2)
    (b : HeapExtends h2 h3) : HeapExtends h1 h3 := by
  obtain ⟨e1, he1⟩ := a
  obtain ⟨e2, he2⟩ := b
  exact ⟨e1 ++ e2, by rw [he2, he1, List.append_assoc]⟩

theorem HeapExtends.len_le {h1 h2 : Heap} (a : HeapExtends h1 h2) :
    h1.cells.length ≤ h2.cells.length := by
  obtain ⟨e, he⟩ := a
  simp [he]

theorem HeapExtends.read_lt {h1 h2 : Heap} (a : HeapExtends h1 h2) {b : Nat}
    (hb : b < h1.cells.length) : h2.read b = h1.read b := by
  obtain ⟨e, he⟩ := a
  simp [Heap.read, he, List.getElem?_append_left hb]

theorem HeapExtends.alloc (h : Heap) (d : List (String × HVal)) :
    HeapExtends h (h.alloc d).1 := ⟨[d], by simp [Heap.alloc]⟩

theorem heapWF_refs {h : Heap} (hwf : heapWF h = true) :
    ∀ a, ∀ r ∈ dictRefs (h.read a), r < h.cells.length := by
  intro a r hr
  rw [heapWF, List.all_eq_true] at hwf
  rw [Heap.read] at hr
  cases hget : h.cells.get? a with
  | none => rw [hget] at hr; cases hr
  | some d =>
    rw [hget] at hr
    simp only [Option.getD_some] at hr
    have hd : d ∈ h.cells := List.get?_mem hget
    have := hwf d hd
    rw [List.all_eq_true] at this
    have := this r hr
    simpa using this

theorem poolLookup_mem {p : Pool} {k : String × String} {v : HVal}
    (h : poolLookup p k = some v) : (k, v) ∈ p := by
  induction p with
  | nil => cases h
  | cons kv rest ih =>
    obtain ⟨k0, v0⟩ := kv
    rw [poolLookup] at h
    by_cases hk : k0 = k
    · subst hk
      simp only [if_pos] at h
      cases h
      exact List.mem_cons_self _ _
    · simp only [hk, if_neg, not_false_iff] at h
      exact List.mem_cons_of_mem _ (ih h)

theorem poolWF_refs {h : Heap} {p : Pool} (hwf : poolWF h p = true)
    {scope nm : String} {v : HVal} (hl : poolLookup p (scope, nm) = some v) :
    ∀ r ∈ valRefs v, r < h.cells.length := by
  intro r hr
  rw [poolWF, List.all_eq_true] at hwf
  have := hwf _ (poolLookup_mem hl)
  rw [List.all_eq_true] at this
  have := this r hr
  simpa using this

theorem poolLookup_set_self (p : Pool) (k : String × String) (v : HVal) :
    poolLookup (poolSet p k v) k = some v := by
  induction p with
  | nil => simp [poolSet, poolLookup]
  | cons kv rest ih =>
    obtain ⟨k0, v0⟩ := kv
    by_cases hk : k0 = k
    · subst hk
      simp [poolSet, poolLookup]
    · simp [poolSet, poolLookup, hk, ih]

/-! ### Deep-copy lemmas -/

theorem deepcopy_spec : ∀ fuel : Nat,
    (∀ n h v h2 w, n ≤ h.cells.length → RegionDescAbove n h →
      deepcopyVal fuel h v = some (h2, w) →
      HeapExtends h h2 ∧ RegionDescAbove n h2 ∧
        (∀ r ∈ valRefs w, n ≤ r ∧ r < h2.cells.length)) ∧
    (∀ n h xs h2 ys, n ≤ h.cells.length → RegionDescAbove n h →
      deepcopyList fuel h xs = some (h2, ys) →
      HeapExtends h h2 ∧ RegionDescAbove n h2 ∧
        (∀ r ∈ valRefsList ys, n ≤ r ∧ r < h2.cells.length)) ∧
    (∀ n h d h2 d2, n ≤ h.cells.length → RegionDescAbove n h →
      deepcopyDict fuel h d = some (h2, d2) →
      HeapExtends h h2 ∧ RegionDescAbove n h2 ∧
        (∀ r ∈ dictRefs d2, n ≤ r ∧ r < h2.cells.length)) := by
  intro fuel
  induction fuel with
  | zero =>
    refine ⟨?_, ?_, ?_⟩ <;> (intro _ _ _ _ _ _ _ hdc; cases hdc)
  | succ f ih =>
    obtain ⟨ihv, ihl, ihd⟩ := ih
    refine ⟨?_, ?_, ?_⟩
    · intro n h v h2 w hn hreg hdc
      cases v with
      | vnone =>
        simp only [deepcopyVal, Option.some.injEq, Prod.mk.injEq] at hdc
        obtain ⟨h1eq, h2eq⟩ := hdc
        subst h1eq
        subst h2eq
        exact ⟨HeapExtends.rfl h, hreg, by intro r hr; cases hr⟩
      | vbool b =>
        simp only [deepcopyVal, Option.some.injEq, Prod.mk.injEq] at hdc
        obtain ⟨h1eq, h2eq⟩ := hdc
        subst h1eq
        subst h2eq
        exact ⟨HeapExtends.rfl h, hreg, by intro r hr; cases hr⟩
      | vint i =>
        simp only [deepcopyVal, Option.some.injEq, Prod.mk.injEq] at hdc
        obtain ⟨h1eq, h2eq⟩ := hdc
        subst h1eq
        subst h2eq
        exact ⟨HeapExtends.rfl h, hreg, by intro r hr; cases hr⟩
      | vfloat q =>
        simp only [deepcopyVal, Option.some.injEq, Prod.mk.injEq] at hdc
        obtain ⟨h1eq, h2eq⟩ := hdc
        subst h1eq
        subst h2eq
        exact ⟨HeapExtends.rfl h, hreg, by intro r hr; cases hr⟩
      | vstr s =>
        simp only [deepcopyVal, Option.some.injEq, Prod.mk.injEq] at hdc
        obtain ⟨h1eq, h2eq⟩ := hdc
        subst h1eq
        subst h2eq
        exact ⟨HeapExtends.rfl h, hreg, by intro r hr; cases hr⟩
      | vlist xs =>
        simp only [deepcopyVal] at hdc
        cases hcl : deepcopyList f h xs with
        | none => rw [hcl] at hdc; cases hdc
        | some pr =>
          obtain ⟨hm, ys⟩ := pr
          rw [hcl] at hdc
          simp only [Option.some.injEq, Prod.mk.injEq] at hdc
          obtain ⟨h1eq, h2eq⟩ := hdc
          subst h1eq
          subst h2eq
          obtain ⟨hext, hreg2, hrefs⟩ := ihl n h xs hm ys hn hreg hcl
          exact ⟨hext, hreg2, by intro r hr; exact hrefs r (by simpa [valRefs] using hr)⟩
      | ref a =>
        simp only [deepcopyVal] at hdc
        cases hcd : deepcopyDict f h (h.read a) with
        | none => rw [hcd] at hdc; cases hdc
        | some pr =>
          obtain ⟨h1, d1⟩ := pr
          rw [hcd] at hdc
          simp only [Option.some.injEq, Prod.mk.injEq] at hdc
          obtain ⟨h1eq, h2eq⟩ := hdc
          subst h1eq
          subst h2eq
          obtain ⟨hext, hreg1, hrefs⟩ := ihd n h (h.read a) h1 d1 hn hreg hcd
          have hlen1 : n ≤ h1.cells.length := Nat.le_trans hn hext.len_le
          refine ⟨hext.trans (HeapExtends.alloc h1 d1), ?_, ?_⟩
          · intro a2 ha2 r hr
            by_cases hb : a2 < h1.cells.length
            · rw [Heap.read_alloc_old h1 d1 a2 hb] at hr
              exact hreg1 a2 ha2 r hr
            · by_cases hb2 : a2 = h1.cells.length
              · subst hb2
                rw [Heap.read_alloc_self] at hr
                have := hrefs r hr
                omega
              · have hnone : (h1.alloc d1).1.cells.get? a2 = none := by
                  apply List.get?_eq_none.mpr
                  rw [Heap.alloc_fst_len]
                  omega
                simp only [Heap.read, hnone, Option.getD_none] at hr
                cases hr
          · intro r hr
            simp only [valRefs, List.mem_singleton] at hr
            subst hr
            rw [Heap.alloc_fst_len]
            simp only [Heap.alloc]
            omega
    · intro n h xs h2 ys hn hreg hdc
      cases xs with
      | nil =>
        simp only [deepcopyList, Option.some.injEq, Prod.mk.injEq] at hdc
        obtain ⟨h1eq, h2eq⟩ := hdc
        subst h1eq
        subst h2eq
        exact ⟨HeapExtends.rfl h, hreg, by intro r hr; cases hr⟩
      | cons x rest =>
        simp only [deepcopyList] at hdc
        cases hcv : deepcopyVal f h x with
        | none => rw [hcv] at hdc; cases hdc
        | some pr =>
          obtain ⟨h1, y⟩ := pr
          cases hcl : deepcopyList f h1 rest with
          | none => simp only [hcv, hcl] at hdc; cases hdc
          | some pr2 =>
            obtain ⟨hm2, ys2⟩ := pr2
            simp only [hcv, hcl, Option.some.injEq, Prod.mk.injEq] at hdc
            obtain ⟨h1eq, h2eq⟩ := hdc
            subst h1eq
            subst h2eq
            obtain ⟨hext1, hreg1, hrefs1⟩ := ihv n h x h1 y hn hreg hcv
            have hlen1 : n ≤ h1.cells.length := Nat.le_trans hn hext1.len_le
            obtain ⟨hext2, hreg2, hrefs2⟩ := ihl n h1 rest hm2 ys2 hlen1 hreg1 hcl
            refine ⟨hext1.trans hext2, hreg2, ?_⟩
            intro r hr
            rw [valRefsList] at hr
            rcases List.mem_append.mp hr with hr1 | hr2
            · have := hrefs1 r hr1
              have := hext2.len_le
              omega
            · exact hrefs2 r hr2
    · intro n h d h2 d2 hn hreg hdc
      cases d with
      | nil =>
        simp only [deepcopyDict, Option.some.injEq, Prod.mk.injEq] at hdc
        obtain ⟨h1eq, h2eq⟩ := hdc
        subst h1eq
        subst h2eq
        exact ⟨HeapExtends.rfl h, hreg, by intro r hr; cases hr⟩
      | cons kv rest =>
        obtain ⟨k, v⟩ := kv
        simp only [deepcopyDict] at hdc
        cases hcv : deepcopyVal f h v with
        | none => rw [hcv] at hdc; cases hdc
        | some pr =>
          obtain ⟨h1, w⟩ := pr
          cases hcd : deepcopyDict f h1 rest with
          | none => simp only [hcv, hcd] at hdc; cases hdc
          | some pr2 =>
            obtain ⟨hm2, ws⟩ := pr2
            simp only [hcv, hcd, Option.some.injEq, Prod.mk.injEq] at hdc
            obtain ⟨h1eq, h2eq⟩ := hdc
            subst h1eq
            subst h2eq
            obtain ⟨hext1, hreg1, hrefs1⟩ := ihv n h v h1 w hn hreg hcv
            have hlen1 : n ≤ h1.cells.length := Nat.le_trans hn hext1.len_le
            obtain ⟨hext2, hreg2, hrefs2⟩ := ihd n h1 rest hm2 ws hlen1 hreg1 hcd
            refine ⟨hext1.trans hext2, hreg2, ?_⟩
            intro r hr
            rw [dictRefs] at hr
            rcases List.mem_append.mp hr with hr1 | hr2
            · have := hrefs1 r hr1
              have := hext2.len_le
              omega
            · exact hrefs2 r hr2

theorem regionDescAbove_len (h : Heap) : RegionDescAbove h.cells.length h := by
  intro a ha r hr
  have hnone : h.cells.get? a = none := List.get?_eq_none.mpr ha
  simp only [Heap.read, hnone, Option.getD_none] at hr
  cases hr

theorem deepcopyVal_extends {fuel : Nat} {h : Heap} {v : HVal} {h2 : Heap}
    {w : HVal} (hdc : deepcopyVal fuel h v = some (h2, w)) : HeapExtends h h2 :=
  ((deepcopy_spec fuel).1 h.cells.length h v h2 w (Nat.le_refl _)
    (regionDescAbove_len h) hdc).1

theorem deepcopyDict_extends {fuel : Nat} {h : Heap} {d : List (String × HVal)}
    {h2 : Heap} {d2 : List (String × HVal)}
    (hdc : deepcopyDict fuel h d = some (h2, d2)) : HeapExtends h h2 :=
  ((deepcopy_spec fuel).2.2 h.cells.length h d h2 d2 (Nat.le_refl _)
    (regionDescAbove_len h) hdc).1

theorem deepcopyVal_region {fuel : Nat} {h : Heap} {v : HVal} {h2 : Heap}
    {w : HVal} (hdc : deepcopyVal fuel h v = some (h2, w)) :
    RegionDescAbove h.cells.length h2 ∧
      ∀ r ∈ valRefs w, h.cells.length ≤ r ∧ r < h2.cells.length :=
  ⟨((deepcopy_spec fuel).1 h.cells.length h v h2 w (Nat.le_refl _)
      (regionDescAbove_len h) hdc).2.1,
   ((deepcopy_spec fuel).1 h.cells.length h v h2 w (Nat.le_refl _)
      (regionDescAbove_len h) hdc).2.2⟩

theorem deepcopyVal_shape {fuel : Nat} {h : Heap} {v : HVal} {h2 : Heap}
    {w : HVal} (hdc : deepcopyVal fuel h v = some (h2, w)) :
    (∀ a, v = .ref a → ∃ b, w = .ref b) ∧ (isRefB v = false → isRefB w = false) := by
  cases fuel with
  | zero => cases hdc
  | succ f =>
    cases v with
    | vnone =>
      simp only [deepcopyVal, Option.some.injEq, Prod.mk.injEq] at hdc
      obtain ⟨h1eq, h2eq⟩ := hdc
      subst h2eq
      exact ⟨fun a ha => (nomatch ha), fun _ => rfl⟩
    | vbool b =>
      simp only [deepcopyVal, Option.some.injEq, Prod.mk.injEq] at hdc
      obtain ⟨h1eq, h2eq⟩ := hdc
      subst h2eq
      exact ⟨fun a ha => (nomatch ha), fun _ => rfl⟩
    | vint i =>
      simp only [deepcopyVal, Option.some.injEq, Prod.mk.injEq] at hdc
      obtain ⟨h1eq, h2eq⟩ := hdc
      subst h2eq
      exact ⟨fun a ha => (nomatch ha), fun _ => rfl⟩
    | vfloat q =>
      simp only [deepcopyVal, Option.some.injEq, Prod.mk.injEq] at hdc
      obtain ⟨h1eq, h2eq⟩ := hdc
      subst h2eq
      exact ⟨fun a ha => (nomatch ha), fun _ => rfl⟩
    | vstr s =>
      simp only [deepcopyVal, Option.some.injEq, Prod.mk.injEq] at hdc
      obtain ⟨h1eq, h2eq⟩ := hdc
      subst h2eq
      exact ⟨fun a ha => (nomatch ha), fun _ => rfl⟩
    | vlist xs =>
      simp only [deepcopyVal] at hdc
      cases hcl : deepcopyList f h xs with
      | none => rw [hcl] at hdc; cases hdc
      | some pr =>
        obtain ⟨hm, ys⟩ := pr
        rw [hcl] at hdc
        simp only [Option.some.injEq, Prod.mk.injEq] at hdc
        obtain ⟨h1eq, h2eq⟩ := hdc
        subst h2eq
        exact ⟨fun a ha => (nomatch ha), fun _ => rfl⟩
    | ref a =>
      simp only [deepcopyVal] at hdc
      cases hcd : deepcopyDict f h (h.read a) with
      | none => rw [hcd] at hdc; cases hdc
      | some pr =>
        obtain ⟨h1, d1⟩ := pr
        rw [hcd] at hdc
        simp only [Option.some.injEq, Prod.mk.injEq] at hdc
        obtain ⟨h1eq, h2eq⟩ := hdc
        subst h2eq
        exact ⟨fun a2 _ => ⟨(h1.alloc d1).2, rfl⟩, fun hfalse => (nomatch hfalse)⟩

theorem deepcopyDict_lookup : ∀ fuel : Nat, ∀ h : Heap,
    ∀ d : List (String × HVal), ∀ h2 : Heap, ∀ d2 : List (String × HVal),
    deepcopyDict fuel h d = some (h2, d2) →
    ∀ k, (hdictGetOpt d k = none ∧ hdictGetOpt d2 k = none) ∨
      ∃ v w, hdictGetOpt d k = some v ∧ hdictGetOpt d2 k = some w ∧
        ∃ f2 hi ho, deepcopyVal f2 hi v = some (ho, w) ∧
          HeapExtends h hi ∧ HeapExtends ho h2 := by
  intro fuel
  induction fuel with
  | zero => intro h d h2 d2 hdc; cases hdc
  | succ f ih =>
    intro h d h2 d2 hdc k
    cases d with
    | nil =>
      simp only [deepcopyDict, Option.some.injEq, Prod.mk.injEq] at hdc
      obtain ⟨h1eq, h2eq⟩ := hdc
      subst h2eq
      exact Or.inl ⟨rfl, rfl⟩
    | cons kv rest =>
      obtain ⟨k0, v0⟩ := kv
      simp only [deepcopyDict] at hdc
      cases hcv : deepcopyVal f h v0 with
      | none => rw [hcv] at hdc; cases hdc
      | some pr =>
        obtain ⟨h1, w0⟩ := pr
        cases hcd : deepcopyDict f h1 rest with
        | none => simp only [hcv, hcd] at hdc; cases hdc
        | some pr2 =>
          obtain ⟨hrest, wrest⟩ := pr2
          simp only [hcv, hcd, Option.some.injEq, Prod.mk.injEq] at hdc
          obtain ⟨h2eq, d2eq⟩ := hdc
          subst h2eq
          subst d2eq
          by_cases hk : k0 = k
          · subst hk
            refine Or.inr ⟨v0, w0, ?_, ?_, f, h, h1, hcv, HeapExtends.rfl h,
              deepcopyDict_extends hcd⟩
            · simp [hdictGetOpt]
            · simp [hdictGetOpt]
          · rcases ih h1 rest hrest wrest hcd k with
              ⟨hn1, hn2⟩ | ⟨v, w, hv, hw, f2, hi, ho, hdc2, hext1, hext2⟩
            · refine Or.inl ⟨?_, ?_⟩
              · simpa [hdictGetOpt, hk] using hn1
              · simpa [hdictGetOpt, hk] using hn2
            · refine Or.inr ⟨v, w, ?_, ?_, f2, hi, ho, hdc2,
                (deepcopyVal_extends hcv).trans hext1, hext2⟩
              · simpa [hdictGetOpt, hk] using hv
              · simpa [hdictGetOpt, hk] using hw

theorem deepcopy_refsim {h0 : Heap} (hwf : heapWF h0 = true) :
    ∀ g : Nat, ∀ fuel : Nat, ∀ hsrc h2 hB : Heap, ∀ a b : Nat,
    a < h0.cells.length → HeapExtends h0 hsrc →
    deepcopyVal fuel hsrc (.ref a) = some (h2, .ref b) →
    HeapExtends h2 hB →
    RefSim h0 hB g a b := by
  intro g
  induction g with
  | zero =>
    intro fuel hsrc h2 hB a b _ _ _ _
    exact trivial
  | succ g ih =>
    intro fuel hsrc h2 hB a b ha hext hdc hextB
    cases fuel with
    | zero => cases hdc
    | succ f =>
      simp only [deepcopyVal] at hdc
      cases hcd : deepcopyDict f hsrc (hsrc.read a) with
      | none => rw [hcd] at hdc; cases hdc
      | some pr =>
        obtain ⟨h1, d1⟩ := pr
        rw [hcd] at hdc
        simp only [Option.some.injEq, Prod.mk.injEq, HVal.ref.injEq] at hdc
        obtain ⟨h2eq, beq⟩ := hdc
        subst h2eq
        subst beq
        have hreadsrc : hsrc.read a = h0.read a := hext.read_lt ha
        have hb_lt : (h1.alloc d1).2 < (h1.alloc d1).1.cells.length := by
          simp [Heap.alloc]
        have hreadB : hB.read (h1.alloc d1).2 = d1 := by
          rw [hextB.read_lt hb_lt]
          simpa [Heap.alloc] using Heap.read_alloc_self h1 d1
        have hextho : HeapExtends h1 hB :=
          (HeapExtends.alloc h1 d1).trans hextB
        rw [RefSim]
        intro k
        rcases deepcopyDict_lookup f hsrc (hsrc.read a) h1 d1 hcd k with
          ⟨hn1, hn2⟩ | ⟨v, w, hv, hw, f2, hi, ho, hdc2, hexti, hexto⟩
        · rw [hreadsrc] at hn1
          refine ⟨?_, ?_, ?_⟩
          · rw [hn1, hreadB, hn2]
          · intro a2 hsome
            rw [hn1] at hsome
            cases hsome
          · intro v hsome _
            rw [hn1] at hsome
            cases hsome
        · rw [hreadsrc] at hv
          refine ⟨?_, ?_, ?_⟩
          · rw [hv, hreadB, hw]
            simp
          · intro a2 hsome
            rw [hv] at hsome
            cases hsome
            obtain ⟨b2, hb2⟩ := (deepcopyVal_shape hdc2).1 a2 rfl
            subst hb2
            refine ⟨b2, by rw [hreadB]; exact hw, ?_⟩
            have ha2 : a2 < h0.cells.length := by
              apply heapWF_refs hwf a
              exact hdictGetOpt_refs hv a2 (by simp [valRefs])
            exact ih f2 hi ho hB a2 b2 ha2 (hext.trans hexti) hdc2
              (hexto.trans hextho)
          · intro v2 hsome hnref
            rw [hv] at hsome
            cases hsome
            refine ⟨w, by rw [hreadB]; exact hw, ?_⟩
            exact (deepcopyVal_shape hdc2).2 hnref

theorem pathBlocked_refsim : ∀ parts : List String, ∀ g : Nat,
    ∀ hA hB : Heap, ∀ a b : Nat,
    parts.length ≤ g → RefSim hA hB g a b →
    pathBlocked hB b parts = pathBlocked hA a parts := by
  intro parts
  induction parts with
  | nil => intro g hA hB a b _ _; rfl
  | cons part rest ih =>
    intro g hA hB a b hlen hsim
    cases rest with
    | nil => rfl
    | cons p2 r2 =>
      cases g with
      | zero => simp at hlen
      | succ g =>
        rw [RefSim] at hsim
        obtain ⟨hiff, href, hnref⟩ := hsim part
        cases hget : hdictGetOpt (hA.read a) part with
        | none =>
          have hgetB : hdictGetOpt (hB.read b) part = none := hiff.mp hget
          simp only [pathBlocked, hget, hgetB]
        | some v =>
          cases v with
          | ref a2 =>
            obtain ⟨b2, hb2, hsim2⟩ := href a2 hget
            simp only [pathBlocked, hget, hb2]
            exact ih g hA hB a2 b2 (by simpa using Nat.le_of_succ_le_succ hlen) hsim2
          | vnone =>
            obtain ⟨w, hw, hwnref⟩ := hnref _ hget rfl
            cases w <;> simp only [pathBlocked, hget, hw] <;> cases hwnref
          | vbool bb =>
            obtain ⟨w, hw, hwnref⟩ := hnref _ hget rfl
            cases w <;> simp only [pathBlocked, hget, hw] <;> cases hwnref
          | vint i =>
            obtain ⟨w, hw, hwnref⟩ := hnref _ hget rfl
            cases w <;> simp only [pathBlocked, hget, hw] <;> cases hwnref
          | vfloat q =>
            obtain ⟨w, hw, hwnref⟩ := hnref _ hget rfl
            cases w <;> simp only [pathBlocked, hget, hw] <;> cases hwnref
          | vstr s =>
            obtain ⟨w, hw, hwnref⟩ := hnref _ hget rfl
            cases w <;> simp only [pathBlocked, hget, hw] <;> cases hwnref
          | vlist xs =>
            obtain ⟨w, hw, hwnref⟩ := hnref _ hget rfl
            cases w <;> simp only [pathBlocked, hget, hw] <;> cases hwnref

theorem pySplitChars_ne_nil (sep : Char) : ∀ cs : List Char,
    pySplitChars sep cs ≠ [] := by
  intro cs
  induction cs with
  | nil => simp [pySplitChars]
  | cons c rest ih =>
    rw [pySplitChars]
    cases hrec : pySplitChars sep rest with
    | nil => simp
    | cons p ps =>
      by_cases hc : c = sep <;> simp [hc]

theorem splitDot_ne_nil (s : String) : splitDot s ≠ [] := by
  rw [splitDot]
  intro hmap
  exact pySplitChars_ne_nil '.' s.data (List.map_eq_nil.mp hmap)

theorem setWalk_fresh : ∀ rest : List String, ∀ h : Heap, ∀ a : Nat,
    ∀ value : HVal,
    rest ≠ [] → a < h.cells.length → h.read a = [] →
    ∃ h2, setWalk h a rest value = (true, h2) ∧
      h.cells.length ≤ h2.cells.length ∧
      (∀ c, c < h.cells.length → c ≠ a → h2.read c = h.read c) ∧
      getWalk h2 (.ref a) rest = some value := by
  intro rest
  induction rest with
  | nil => intro h a value hne _ _; exact absurd rfl hne
  | cons part rest2 ih =>
    intro h a value _ ha hempty
    cases rest2 with
    | nil =>
      refine ⟨h.write a (hdictSet (h.read a) part value), rfl, ?_, ?_, ?_⟩
      · rw [Heap.length_write]
      · intro c hc hca
        exact Heap.read_write_ne h a c _ hca
      · rw [getWalk, Heap.read_write_self h a _ ha, hdictGetOpt_set_self]
        simp [getWalk]
    | cons p2 r2 =>
      have hget : hdictGetOpt (h.read a) part = none := by
        rw [hempty]
        rfl
      have hfa : ((h.alloc []).1).read a = [] := by
        rw [Heap.read_alloc_old h [] a ha, hempty]
      have hlen3 :
          (((h.alloc []).1).write a
            (hdictSet (((h.alloc []).1).read a) part
              (.ref h.cells.length))).cells.length = h.cells.length + 1 := by
        rw [Heap.length_write, Heap.alloc_fst_len]
      have hreadfresh :
          (((h.alloc []).1).write a
            (hdictSet (((h.alloc []).1).read a) part
              (.ref h.cells.length))).read h.cells.length = [] := by
        rw [Heap.read_write_ne _ _ _ _ (Nat.ne_of_gt ha),
          Heap.read_alloc_self]
      have hread3a :
          (((h.alloc []).1).write a
            (hdictSet (((h.alloc []).1).read a) part
              (.ref h.cells.length))).read a = [(part, .ref h.cells.length)] := by
        rw [Heap.read_write_self _ _ _ (by rw [Heap.alloc_fst_len]; omega), hfa]
        rfl
      obtain ⟨h4, hsw, hlen4, hframe4, hgw4⟩ :=
        ih (((h.alloc []).1).write a
            (hdictSet (((h.alloc []).1).read a) part (.ref h.cells.length)))
          h.cells.length value (by simp) (by rw [hlen3]; omega) hreadfresh
      refine ⟨h4, ?_, ?_, ?_, ?_⟩
      · rw [setWalk, hget]
        · exact hsw
        · intro hc
          cases hc
      · rw [hlen3] at hlen4
        omega
      · intro c hc hca
        have h1 : h4.read c =
            (((h.alloc []).1).write a
              (hdictSet (((h.alloc []).1).read a) part
                (.ref h.cells.length))).read c := by
          apply hframe4 c (by rw [hlen3]; omega) (Nat.ne_of_lt hc)
        rw [h1, Heap.read_write_ne _ _ _ _ hca, Heap.read_alloc_old h [] c hc]
      · have hr4a : h4.read a = [(part, .ref h.cells.length)] := by
          rw [hframe4 a (by rw [hlen3]; omega) (Nat.ne_of_lt ha), hread3a]
        rw [getWalk, hr4a]
        simpa [hdictGetOpt] using hgw4

theorem pathBlocked_cons2 (h : Heap) (a : Nat) (part p2 : String)
    (r2 : List String) :
    pathBlocked h a (part :: p2 :: r2) =
      match hdictGetOpt (h.read a) part with
      | some (.ref a1) => pathBlocked h a1 (p2 :: r2)
      | some _ => true
      | none => false := rfl

theorem setWalk_cons2 (h : Heap) (addr : Nat) (part p2 : String)
    (r2 : List String) (value : HVal) :
    setWalk h addr (part :: p2 :: r2) value =
      match hdictGetOpt (h.read addr) part with
      | none =>
        setWalk (((h.alloc []).1).write addr
            (hdictSet (((h.alloc []).1).read addr) part (.ref (h.alloc []).2)))
          (h.alloc []).2 (p2 :: r2) value
      | some (.ref a1) => setWalk h a1 (p2 :: r2) value
      | some _ => (false, h) := rfl

theorem getWalk_ref_cons (h : Heap) (a : Nat) (k : String)
    (rest : List String) :
    getWalk h (.ref a) (k :: rest) =
      match hdictGetOpt (h.read a) k with
      | some v1 => getWalk h v1 rest
      | none => none := rfl

theorem setWalk_main : ∀ parts : List String, ∀ n : Nat, ∀ h : Heap,
    ∀ a : Nat, ∀ value : HVal,
    parts ≠ [] → n ≤ a → a < h.cells.length → RegionDescAbove n h →
    (pathBlocked h a parts = true → setWalk h a parts value = (false, h)) ∧
    (pathBlocked h a parts = false →
      ∃ h2, setWalk h a parts value = (true, h2) ∧
        h.cells.length ≤ h2.cells.length ∧
        (∀ c, c < n → h2.read c = h.read c) ∧
        (∀ c, a < c → c < h.cells.length → h2.read c = h.read c) ∧
        getWalk h2 (.ref a) parts = some value) := by
  intro parts
  induction parts with
  | nil => intro n h a value hne; exact absurd rfl hne
  | cons part rest ih =>
    intro n h a value _ hna ha hreg
    cases rest with
    | nil =>
      constructor
      · intro hb
        simp [pathBlocked] at hb
      · intro _
        refine ⟨h.write a (hdictSet (h.read a) part value), rfl, ?_, ?_, ?_, ?_⟩
        · rw [Heap.length_write]
        · intro c hc
          exact Heap.read_write_ne h a c _ (by omega)
        · intro c hc hclen
          exact Heap.read_write_ne h a c _ (by omega)
        · rw [getWalk_ref_cons, Heap.read_write_self h a _ ha,
            hdictGetOpt_set_self]
          simp [getWalk]
    | cons p2 r2 =>
      have hrne : p2 :: r2 ≠ [] := by simp
      cases hget : hdictGetOpt (h.read a) part with
      | none =>
        constructor
        · intro hb
          rw [pathBlocked_cons2, hget] at hb
          cases hb
        · intro _
          have hfa : ((h.alloc []).1).read a = [] ∨ True := Or.inr trivial
          have hreadfresh :
              (((h.alloc []).1).write a
                (hdictSet (((h.alloc []).1).read a) part
                  (.ref h.cells.length))).read h.cells.length = [] := by
            rw [Heap.read_write_ne _ _ _ _ (Nat.ne_of_gt ha),
              Heap.read_alloc_self]
          have hlen3 :
              (((h.alloc []).1).write a
                (hdictSet (((h.alloc []).1).read a) part
                  (.ref h.cells.length))).cells.length = h.cells.length + 1 := by
            rw [Heap.length_write, Heap.alloc_fst_len]
          have hread3a :
              (((h.alloc []).1).write a
                (hdictSet (((h.alloc []).1).read a) part
                  (.ref h.cells.length))).read a =
                hdictSet (h.read a) part (.ref h.cells.length) := by
            rw [Heap.read_write_self _ _ _ (by rw [Heap.alloc_fst_len]; omega),
              Heap.read_alloc_old h [] a ha]
          obtain ⟨h4, hsw, hlen4, hframe4, hgw4⟩ :=
            setWalk_fresh (p2 :: r2)
              (((h.alloc []).1).write a
                (hdictSet (((h.alloc []).1).read a) part (.ref h.cells.length)))
              h.cells.length value hrne (by rw [hlen3]; omega) hreadfresh
          refine ⟨h4, ?_, ?_, ?_, ?_, ?_⟩
          · rw [setWalk_cons2, hget]
            exact hsw
          · rw [hlen3] at hlen4
            omega
          · intro c hc
            have h1 : h4.read c =
                (((h.alloc []).1).write a
                  (hdictSet (((h.alloc []).1).read a) part
                    (.ref h.cells.length))).read c :=
              hframe4 c (by rw [hlen3]; omega) (by omega)
            rw [h1, Heap.read_write_ne _ _ _ _ (by omega),
              Heap.read_alloc_old h [] c (by omega)]
          · intro c hc hclen
            have h1 : h4.read c =
                (((h.alloc []).1).write a
                  (hdictSet (((h.alloc []).1).read a) part
                    (.ref h.cells.length))).read c :=
              hframe4 c (by rw [hlen3]; omega) (by omega)
            rw [h1, Heap.read_write_ne _ _ _ _ (by omega),
              Heap.read_alloc_old h [] c (by omega)]
          · have hr4a : h4.read a =
                hdictSet (h.read a) part (.ref h.cells.length) := by
              rw [hframe4 a (by rw [hlen3]; omega) (by omega), hread3a]
            rw [getWalk_ref_cons, hr4a, hdictGetOpt_set_self]
            exact hgw4
      | some v =>
        cases v with
        | ref a1 =>
          have hmem : a1 ∈ dictRefs (h.read a) :=
            hdictGetOpt_refs hget a1 (by simp [valRefs])
          obtain ⟨hna1, ha1a⟩ := hreg a hna a1 hmem
          have ha1 : a1 < h.cells.length := by omega
          obtain ⟨ihblock, ihok⟩ := ih n h a1 value hrne hna1 ha1 hreg
          constructor
          · intro hb
            rw [pathBlocked_cons2, hget] at hb
            rw [setWalk_cons2, hget]
            exact ihblock hb
          · intro hb
            rw [pathBlocked_cons2, hget] at hb
            obtain ⟨h2, hsw, hlen2, hfr1, hfr2, hgw⟩ := ihok hb
            refine ⟨h2, ?_, hlen2, hfr1, ?_, ?_⟩
            · rw [setWalk_cons2, hget]
              exact hsw
            · intro c hc hclen
              exact hfr2 c (by omega) hclen
            · have hra : h2.read a = h.read a := hfr2 a ha1a ha
              rw [getWalk_ref_cons, hra, hget]
              exact hgw
        | vnone =>
          constructor
          · intro _
            rw [setWalk_cons2, hget]
          · intro hb
            rw [pathBlocked_cons2, hget] at hb
            cases hb
        | vbool b =>
          constructor
          · intro _
            rw [setWalk_cons2, hget]
          · intro hb
            rw [pathBlocked_cons2, hget] at hb
            cases hb
        | vint i =>
          constructor
          · intro _
            rw [setWalk_cons2, hget]
          · intro hb
            rw [pathBlocked_cons2, hget] at hb
            cases hb
        | vfloat q =>
          constructor
          · intro _
            rw [setWalk_cons2, hget]
          · intro hb
            rw [pathBlocked_cons2, hget] at hb
            cases hb
        | vstr s =>
          constructor
          · intro _
            rw [setWalk_cons2, hget]
          · intro hb
            rw [pathBlocked_cons2, hget] at hb
            cases hb
        | vlist xs =>
          constructor
          · intro _
            rw [setWalk_cons2, hget]
          · intro hb
            rw [pathBlocked_cons2, hget] at hb
            cases hb

theorem getWalk_frame : ∀ parts : List String, ∀ h h2 : Heap, ∀ r : Nat,
    heapWF h = true → r < h.cells.length →
    (∀ c, c < h.cells.length → h2.read c = h.read c) →
    getWalk h2 (.ref r) parts = getWalk h (.ref r) parts := by
  intro parts
  induction parts with
  | nil => intro h h2 r _ _ _; rfl
  | cons k rest ih =>
    intro h h2 r hwf hr hframe
    rw [getWalk_ref_cons, getWalk_ref_cons, hframe r hr]
    cases hget : hdictGetOpt (h.read r) k with
    | none => rfl
    | some v =>
      show getWalk h2 v rest = getWalk h v rest
      cases v with
      | ref r2 =>
        have hmem : r2 ∈ dictRefs (h.read r) :=
          hdictGetOpt_refs hget r2 (by simp [valRefs])
        have hr2 : r2 < h.cells.length := heapWF_refs hwf r r2 hmem
        exact ih h h2 r2 hwf hr2 hframe
      | vnone => cases rest with | nil => rfl | cons x y => rfl
      | vbool b => cases rest with | nil => rfl | cons x y => rfl
      | vint i => cases rest with | nil => rfl | cons x y => rfl
      | vfloat q => cases rest with | nil => rfl | cons x y => rfl
      | vstr s => cases rest with | nil => rfl | cons x y => rfl
      | vlist xs => cases rest with | nil => rfl | cons x y => rfl

theorem getWalk_nil (h : Heap) (v : HVal) : getWalk h v [] = some v := by
  cases v <;> rfl

theorem poolGet_cons2 (h : Heap) (p : Pool) (scope nm : String)
    (rest : List String) :
    poolGet h p (scope :: nm :: rest) =
      match poolLookup p (scope, nm) with
      | some v => getWalk h v rest
      | none => none := rfl

/-- **C7**: `set_nested_value` returns `False` (leaving heap reads and the
pool unchanged) exactly when the base selector has no stored value, the
stored value is not a dict object, or writing the dot-path would overwrite a
non-dict intermediate value of the stored object; in every other case it
returns `True`, replaces the pool entry, and afterwards reading
`selector + path` from the updated pool yields the newly written value. -/
theorem C7_set_nested_semantics (fuel : Nat) (h : Heap) (p : Pool)
    (scope nm path : String) (value : HVal)
    (hwf : heapWF h = true) (hpwf : poolWF h p = true) :
    (poolGet h p [scope, nm] = none →
      set_nested_value fuel h p [scope, nm] path value = some (false, h, p)) ∧
    (∀ v, poolGet h p [scope, nm] = some v → isRefB v = false →
      set_nested_value fuel h p [scope, nm] path value = some (false, h, p)) ∧
    (∀ a res, poolGet h p [scope, nm] = some (.ref a) →
      set_nested_value fuel h p [scope, nm] path value = some res →
      (pathBlocked h a (splitDot path) = true →
        res.1 = false ∧ res.2.2 = p ∧
          ∀ c, c < h.cells.length → res.2.1.read c = h.read c) ∧
      (pathBlocked h a (splitDot path) = false →
        res.1 = true ∧
          poolGet res.2.1 res.2.2 ([scope, nm] ++ splitDot path) =
            some value)) := by
  refine ⟨?_, ?_, ?_⟩
  · intro hnone
    simp only [set_nested_value, hnone]
  · intro v hsome hnref
    cases v with
    | ref a => cases hnref
    | vnone => simp only [set_nested_value, hsome]
    | vbool b => simp only [set_nested_value, hsome]
    | vint i => simp only [set_nested_value, hsome]
    | vfloat q => simp only [set_nested_value, hsome]
    | vstr s => simp only [set_nested_value, hsome]
    | vlist xs => simp only [set_nested_value, hsome]
  · intro a res hget hres
    have hlk : poolLookup p (scope, nm) = some (.ref a) := by
      cases hlk0 : poolLookup p (scope, nm) with
      | none => rw [poolGet_cons2, hlk0] at hget; cases hget
      | some v0 =>
        simp only [poolGet_cons2, hlk0, getWalk_nil, Option.some.injEq] at hget
        rw [hget]
    have ha : a < h.cells.length := by
      have := poolWF_refs hpwf hlk
      exact this a (by simp [valRefs])
    simp only [set_nested_value, hget] at hres
    cases hdc : deepcopyVal fuel h (.ref a) with
    | none => rw [hdc] at hres; cases hres
    | some pr =>
      obtain ⟨h1, w⟩ := pr
      obtain ⟨newRoot, hw⟩ := (deepcopyVal_shape hdc).1 a rfl
      subst hw
      simp only [hdc] at hres
      have hext : HeapExtends h h1 := deepcopyVal_extends hdc
      obtain ⟨hreg1, hrefs1⟩ := deepcopyVal_region hdc
      obtain ⟨hrootlo, hroothi⟩ := hrefs1 newRoot (by simp [valRefs])
      have hsim : RefSim h h1 (splitDot path).length a newRoot :=
        deepcopy_refsim hwf (splitDot path).length fuel h h1 h1 a newRoot ha
          (HeapExtends.rfl h) hdc (HeapExtends.rfl h1)
      have htrans : pathBlocked h1 newRoot (splitDot path) =
          pathBlocked h a (splitDot path) :=
        pathBlocked_refsim (splitDot path) (splitDot path).length h h1 a
          newRoot (Nat.le_refl _) hsim
      obtain ⟨hblocked, hok⟩ :=
        setWalk_main (splitDot path) h.cells.length h1 newRoot value
          (splitDot_ne_nil path) hrootlo hroothi hreg1
      cases hb : pathBlocked h a (splitDot path) with
      | true =>
        have hsw : setWalk h1 newRoot (splitDot path) value = (false, h1) :=
          hblocked (by rw [htrans, hb])
        simp only [hsw] at hres
        simp only [Option.some.injEq] at hres
        subst hres
        refine ⟨?_, ?_⟩
        · intro _
          exact ⟨rfl, rfl, fun c hc => hext.read_lt hc⟩
        · intro hcontra
          cases hcontra
      | false =>
        obtain ⟨h2, hsw, hlen2, hfr1, hfr2, hgw⟩ := hok (by rw [htrans, hb])
        simp only [hsw] at hres
        simp only [Option.some.injEq] at hres
        subst hres
        refine ⟨?_, ?_⟩
        · intro hcontra
          cases hcontra
        · intro _
          refine ⟨rfl, ?_⟩
          rw [List.cons_append, List.cons_append, List.nil_append]
          rw [poolGet_cons2]
          have hadd : poolAdd p [scope, nm] (.ref newRoot) =
              poolSet p (scope, nm) (.ref newRoot) := rfl
          rw [hadd, poolLookup_set_self]
          exact hgw

/-- **C8**: a successful `set_nested_value` never mutates the previously
stored object: every cell of the original heap reads unchanged, every walk
from the old object reference yields the same result as before the call,
and the pool entry now holds a reference to a different (freshly copied)
object. -/
theorem C8_set_nested_frame (fuel : Nat) (h : Heap) (p : Pool)
    (scope nm path : String) (value : HVal) (a : Nat) (h2 : Heap) (p2 : Pool)
    (hwf : heapWF h = true) (hpwf : poolWF h p = true)
    (hget : poolGet h p [scope, nm] = some (.ref a))
    (hres : set_nested_value fuel h p [scope, nm] path value =
      some (true, h2, p2)) :
    (∀ c, c < h.cells.length → h2.read c = h.read c) ∧
    (∀ parts2, getWalk h2 (.ref a) parts2 = getWalk h (.ref a) parts2) ∧
    ∃ r2, poolLookup p2 (scope, nm) = some (.ref r2) ∧ a < r2 := by
  have hlk : poolLookup p (scope, nm) = some (.ref a) := by
    cases hlk0 : poolLookup p (scope, nm) with
    | none => rw [poolGet_cons2, hlk0] at hget; cases hget
    | some v0 =>
      simp only [poolGet_cons2, hlk0, getWalk_nil, Option.some.injEq] at hget
      rw [hget]
  have ha : a < h.cells.length := by
    have := poolWF_refs hpwf hlk
    exact this a (by simp [valRefs])
  simp only [set_nested_value, hget] at hres
  cases hdc : deepcopyVal fuel h (.ref a) with
  | none => rw [hdc] at hres; cases hres
  | some pr =>
    obtain ⟨h1, w⟩ := pr
    obtain ⟨newRoot, hw⟩ := (deepcopyVal_shape hdc).1 a rfl
    subst hw
    simp only [hdc] at hres
    have hext : HeapExtends h h1 := deepcopyVal_extends hdc
    obtain ⟨hreg1, hrefs1⟩ := deepcopyVal_region hdc
    obtain ⟨hrootlo, hroothi⟩ := hrefs1 newRoot (by simp [valRefs])
    obtain ⟨hblocked, hok⟩ :=
      setWalk_main (splitDot path) h.cells.length h1 newRoot value
        (splitDot_ne_nil path) hrootlo hroothi hreg1
    cases hb : pathBlocked h1 newRoot (splitDot path) with
    | true =>
      have hsw := hblocked hb
      simp only [hsw, Option.some.injEq, Prod.mk.injEq] at hres
      exact absurd hres.1 Bool.false_ne_true
    | false =>
      obtain ⟨h2b, hsw, hlen2, hfr1, hfr2, hgw⟩ := hok hb
      simp only [hsw, Option.some.injEq, Prod.mk.injEq, true_and] at hres
      obtain ⟨h2eq, p2eq⟩ := hres
      subst h2eq
      subst p2eq
      have hframe : ∀ c, c < h.cells.length → h2b.read c = h.read c := by
        intro c hc
        rw [hfr1 c hc, hext.read_lt hc]
      refine ⟨hframe, ?_, ?_⟩
      · intro parts2
        exact getWalk_frame parts2 h h2b a hwf ha hframe
      · refine ⟨newRoot, ?_, by omega⟩
        have hadd : poolAdd p [scope, nm] (.ref newRoot) =
            poolSet p (scope, nm) (.ref newRoot) := rfl
        rw [hadd, poolLookup_set_self]

/-- Witness for C7: on the unit tests' pool, writing `"modified"` at
`nested.value` succeeds and reading the full dot-path from the updated pool
returns the new value. -/
theorem C7_set_nested_semantics_witness :
    heapWF exampleHeap = true ∧ poolWF exampleHeap examplePool = true ∧
    ((true, exampleResultHeap, exampleResultPool) : Bool × Heap × Pool).1 =
      true ∧
    poolGet exampleResultHeap exampleResultPool
      (["node_1", "user"] ++ splitDot "nested.value") =
      some (HVal.vstr "modified") :=
  ⟨rfl, rfl,
    ((C7_set_nested_semantics 10 exampleHeap examplePool "node_1" "user"
        "nested.value" (HVal.vstr "modified") rfl rfl).2.2 0
      (true, exampleResultHeap, exampleResultPool) rfl rfl).2 rfl⟩

/-- Witness for C8: after the successful update, every original heap cell
reads unchanged, every walk from the old reference is unchanged, and the
pool entry references a fresh cell. -/
theorem C8_set_nested_frame_witness :
    heapWF exampleHeap = true ∧ poolWF exampleHeap examplePool = true ∧
    poolGet exampleHeap examplePool ["node_1", "user"] =
      some (HVal.ref 0) ∧
    ((∀ c, c < exampleHeap.cells.length →
        exampleResultHeap.read c = exampleHeap.read c) ∧
     (∀ parts2, getWalk exampleResultHeap (HVal.ref 0) parts2 =
        getWalk exampleHeap (HVal.ref 0) parts2) ∧
     ∃ r2, poolLookup exampleResultPool ("node_1", "user") =
        some (HVal.ref r2) ∧ 0 < r2) :=
  ⟨rfl, rfl, rfl,
    C8_set_nested_frame 10 exampleHeap examplePool "node_1" "user"
      "nested.value" (HVal.vstr "modified") 0 exampleResultHeap
      exampleResultPool rfl rfl rfl rfl⟩
